import Mathlib

/-!
Verification of the task-pipeline engine, pipeline node library, MCP client
connection manager and conversation state machine of the slack-linear-bot
repository, shallowly embedded in Lean 4.

The embedding follows the TypeScript sources:
  * src/utils.ts and src/llmquery.ts - the TaskPipeline class (addNode,
    execute, determineExecutionOrder) and the node constructors; the two
    files contain the same TaskPipeline code, modelled once here.
  * src/mcp_client.ts - the module-level client cache (markAsDisconnected,
    initializeMcpClient, getMcpClient).
  * src/app.ts - the message handler branch for threads whose last search
    returned no results, and generateRefinedSearchQuery.

JavaScript string-keyed records (plain objects) are modelled as association
lists in insertion order: assignment replaces an existing binding in place
and appends a fresh binding at the end, which is exactly the enumeration
order Object.keys observes.  External effects (HTTP fetch, OpenAI calls,
MCP tool calls) are modelled as explicit environment functions returning
Except values; an exception thrown by the JS code is an Except.error.
-/

namespace SlackLinearBot

/-- Tool names from src/enums.ts (the enum file itself is not in the
snapshot; the constructors are reconstructed from its call sites and the
tool-catalog document, and only the identity of SearchIssues matters to
any claim). -/
inductive McpToolName where
  | SearchIssues
  | GetViewer
  | CreateIssue
deriving DecidableEq

/-- An MCP tool descriptor (type McpTool in utils.ts / llmquery.ts). -/
structure McpTool where
  name : McpToolName
  description : Option String := none
deriving DecidableEq

/-- Search parameters prepared by createLinearSearchNode in utils.ts:
the object with fields query and first (fixed at 10). -/
structure SearchParams where
  query : String
  first : Nat := 10
deriving DecidableEq

/-- interface LlmResponse from utils.ts: tool, parameters, optional error.
JS null is modelled as none. -/
structure LlmResponse where
  tool : Option McpTool := none
  parameters : Option SearchParams := none
  error : Option String := none
deriving DecidableEq

/-- type ImageContent from utils.ts: the encoded-image descriptor pushed by
the process-images node.  The type and detail fields are the constants
"input_image" and "auto" in the source. -/
structure ImageContent where
  type : String := "input_image"
  image_url : String
  detail : String := "auto"
deriving DecidableEq

/-- The value universe for data flowing through one pipeline run: node
results and context entries.  The source is untyped (any); the concrete
runs modelled here only ever store these shapes. -/
inductive Value where
  | str (s : String)
  | images (imgs : List ImageContent)
  | llmResp (r : LlmResponse)
  | raw (s : String)
deriving DecidableEq

/-- JS record assignment obj.k = v on a string-keyed object: replaces the
binding in place when the key is present (keeping first-insertion order),
appends otherwise. -/
def setKey (m : List (String × α)) (k : String) (v : α) : List (String × α) :=
  match m with
  | [] => [(k, v)]
  | (k1, v1) :: rest => if k1 = k then (k, v) :: rest else (k1, v1) :: setKey rest k v

/-- JS record lookup obj.k: the first binding for the key, if any. -/
def getKey (m : List (String × α)) (k : String) : Option α :=
  match m with
  | [] => none
  | (k1, v1) :: rest => if k1 = k then some v1 else getKey rest k

/-- Object.keys: the keys of a record in insertion order. -/
def keys (m : List (String × α)) : List String :=
  m.map Prod.fst

/-- interface ExecutionContext: the mutable record shared by the nodes of
one pipeline run (inputs, results, availableTools). -/
structure ExecutionContext (α : Type) where
  inputs : List (String × α) := []
  results : List (String × α) := []
  availableTools : List McpTool := []

/-- interface Node: a unit of work with an id, declared dependencies and an
asynchronous execute function.  A JS node may mutate the shared context and
may throw; both are visible in the returned pair: the Except carries the
result or the thrown error, and the second component is the context as the
node left it. -/
structure PNode (α ε : Type) where
  id : String
  dependencies : List String := []
  execute : ExecutionContext α → Except ε α × ExecutionContext α

/-- Errors a pipeline run can surface.  depNotFound is the
`Dependency "..." not found for node "..."` error thrown by
determineExecutionOrder; nodeNotFound is the TypeError JS would raise when
reading .dependencies or .execute of an unregistered id (proven unreachable
below); fuelExhausted is an artifact of the fuelled embedding of the
recursive visit closure, also proven unreachable; nodeFailure wraps an
error thrown by a node's execute, rethrown unchanged by the engine. -/
inductive PipelineError (ε : Type) where
  | depNotFound (depId : String) (nodeId : String)
  | nodeNotFound (nodeId : String)
  | fuelExhausted
  | nodeFailure (e : ε)
deriving DecidableEq

/-- State of the depth-first traversal in determineExecutionOrder: the
memoized visited set and the execution order built so far. -/
structure DfsState where
  visited : List String := []
  order : List String := []
deriving DecidableEq

mutual

/-- The recursive visit closure of TaskPipeline.determineExecutionOrder:
early-return on a memoized id, mark visited, check each declared dependency
is registered then visit it, finally append the id to the order.  The JS
recursion is embedded with explicit fuel; execute passes enough fuel and
fuel exhaustion is proven unreachable. -/
def visit (nodes : List (String × PNode α ε)) :
    Nat → String → DfsState → Except (PipelineError ε) DfsState
  | 0, _, _ => .error .fuelExhausted
  | fuel + 1, nodeId, st =>
    if nodeId ∈ st.visited then .ok st
    else
      let st1 : DfsState := { st with visited := nodeId :: st.visited }
      match getKey nodes nodeId with
      | none => .error (.nodeNotFound nodeId)
      | some node =>
        match visitList nodes fuel nodeId node.dependencies st1 with
        | .error e => .error e
        | .ok st2 => .ok { st2 with order := st2.order ++ [nodeId] }
termination_by fuel _ _ => (fuel, 0)

/-- The dependency loop inside visit: for each declared dependency, throw
depNotFound when it is not registered, otherwise visit it. -/
def visitList (nodes : List (String × PNode α ε)) :
    Nat → String → List String → DfsState → Except (PipelineError ε) DfsState
  | _, _, [], st => .ok st
  | fuel, nodeId, depId :: rest, st =>
    match getKey nodes depId with
    | none => .error (.depNotFound depId nodeId)
    | some _ =>
      match visit nodes fuel depId st with
      | .error e => .error e
      | .ok st1 => visitList nodes fuel nodeId rest st1
termination_by fuel _ l _ => (fuel, l.length + 1)

end

/-- The top-level loop of determineExecutionOrder:
Object.keys(this.nodes).forEach(visit). -/
def visitAll (nodes : List (String × PNode α ε)) (fuel : Nat) :
    List String → DfsState → Except (PipelineError ε) DfsState
  | [], st => .ok st
  | k :: rest, st =>
    match visit nodes fuel k st with
    | .error e => .error e
    | .ok st1 => visitAll nodes fuel rest st1

/-- TaskPipeline.determineExecutionOrder: depth-first traversal over the
registered ids in registration order, memoizing visited ids; returns the
resolved execution order.  The fuel (number of registered nodes plus one)
is proven sufficient below. -/
def determineExecutionOrder (nodes : List (String × PNode α ε)) :
    Except (PipelineError ε) (List String) :=
  match visitAll nodes (nodes.length + 1) (keys nodes) {} with
  | .error e => .error e
  | .ok st => .ok st.order

/-- The execution loop of TaskPipeline.execute, instrumented with the list
of node ids whose execute function actually ran (the trace): for each id in
order, run the node's execute on the shared context and store its result
under the node's id; on a node failure stop immediately and rethrow.  The
first component is the outcome, the second the context as it stands when
the loop stops (visible to a caller that introspects it), the third the
trace. -/
def runNodes (nodes : List (String × PNode α ε)) :
    List String → ExecutionContext α →
    Except (PipelineError ε) Unit × ExecutionContext α × List String
  | [], ctx => (.ok (), ctx, [])
  | nodeId :: rest, ctx =>
    match getKey nodes nodeId with
    | none => (.error (.nodeNotFound nodeId), ctx, [])
    | some node =>
      match node.execute ctx with
      | (.error e, ctx1) => (.error (.nodeFailure e), ctx1, [nodeId])
      | (.ok v, ctx1) =>
        let ctx2 : ExecutionContext α := { ctx1 with results := setKey ctx1.results nodeId v }
        match runNodes nodes rest ctx2 with
        | (res, ctxF, tr) => (res, ctxF, nodeId :: tr)

/-- class TaskPipeline: the registered nodes, a string-keyed record in
registration order. -/
structure TaskPipeline (α ε : Type) where
  nodes : List (String × PNode α ε) := []

/-- TaskPipeline.addNode: register (or silently replace) the node under its
id and return the id. -/
def TaskPipeline.addNode (p : TaskPipeline α ε) (n : PNode α ε) :
    TaskPipeline α ε × String :=
  ({ nodes := setKey p.nodes n.id n }, n.id)

/-- TaskPipeline.execute: resolve the execution order, then run the nodes
sequentially, returning context.results on success and rethrowing the first
failure. -/
def TaskPipeline.execute (p : TaskPipeline α ε) (initialContext : ExecutionContext α) :
    Except (PipelineError ε) (List (String × α)) :=
  match determineExecutionOrder p.nodes with
  | .error e => .error e
  | .ok order =>
    match runNodes p.nodes order initialContext with
    | (.ok _, ctx, _) => .ok ctx.results
    | (.error e, _, _) => .error e

/-- TaskPipeline.execute with its observable internals: outcome, final
shared context and the trace of node ids whose execute ran. -/
def TaskPipeline.executeTraced (p : TaskPipeline α ε) (initialContext : ExecutionContext α) :
    Except (PipelineError ε) Unit × ExecutionContext α × List String :=
  match determineExecutionOrder p.nodes with
  | .error e => (.error e, initialContext, [])
  | .ok order => runNodes p.nodes order initialContext

/-- The declared dependencies of a registered id (empty for an unregistered
id, matching the undefined-checks in the source). -/
def depsOf (nodes : List (String × PNode α ε)) (id : String) : List String :=
  match getKey nodes id with
  | some n => n.dependencies
  | none => []

/-- The dependency edge relation: a points at each of its declared
dependencies. -/
def DepStep (nodes : List (String × PNode α ε)) (a b : String) : Prop :=
  b ∈ depsOf nodes a

/-- The dependency graph has no cycle. -/
def Acyclic (nodes : List (String × PNode α ε)) : Prop :=
  ∀ n, ¬ Relation.TransGen (DepStep nodes) n n

/-- Every declared dependency of every registered node is itself
registered. -/
def DepClosed (nodes : List (String × PNode α ε)) : Prop :=
  ∀ id ∈ keys nodes, ∀ d ∈ depsOf nodes id, d ∈ keys nodes

/-- In the list, every entry's declared dependencies occur strictly before
the entry. -/
def DepsOrdered (nodes : List (String × PNode α ε)) (l : List String) : Prop :=
  ∀ l1 n l2, l = l1 ++ n :: l2 → ∀ d ∈ depsOf nodes n, d ∈ l1

/-- Invariant of the DFS state: the order built so far is duplicate-free,
its entries are visited registered ids, and their declared dependencies are
all registered. -/
def StInv (nodes : List (String × PNode α ε)) (st : DfsState) : Prop :=
  st.order.Nodup ∧
  (∀ x ∈ st.order, x ∈ st.visited) ∧
  (∀ x ∈ st.order, x ∈ keys nodes) ∧
  (∀ x ∈ st.order, ∀ d ∈ depsOf nodes x, d ∈ keys nodes)

/-- Postcondition of a successful visit / dependency-loop call: the visited
set grows, the order is extended at the end, every newly visited id is in
the new order, every new order entry was unvisited before the call, and
the state invariant is preserved. -/
def VisitPost (nodes : List (String × PNode α ε)) (st st' : DfsState) : Prop :=
  (∀ x ∈ st.visited, x ∈ st'.visited) ∧
  (∃ tail, st'.order = st.order ++ tail) ∧
  (∀ x ∈ st'.visited, x ∈ st.visited ∨ x ∈ st'.order) ∧
  (∀ x ∈ st'.order, x ∈ st.order ∨ x ∉ st.visited) ∧
  (StInv nodes st → StInv nodes st')

/-- The number of registered ids the DFS has not visited yet; the measure
showing the fuel passed by determineExecutionOrder is sufficient. -/
def unvisitedCount (nodes : List (String × PNode α ε)) (st : DfsState) : Nat :=
  ((keys nodes).filter (fun k => decide (k ∉ st.visited))).length

/-- A node's execute preserves every existing binding of context.results
(it may add new ones).  All nodes of the library satisfy this. -/
def PreservesResults (n : PNode α ε) : Prop :=
  ∀ ctx : ExecutionContext α, ∀ k v,
    (k, v) ∈ ctx.results → (k, v) ∈ (n.execute ctx).2.results

/-- A node's execute only appends to context.results: bindings whose key is
outside the allowance list survive untouched, and every key it introduces
is from the allowance list. -/
def AddsOnly (allowed : List String) (n : PNode α ε) : Prop :=
  ∀ ctx : ExecutionContext α,
    (∀ k v, k ∉ allowed → (k, v) ∈ ctx.results → (k, v) ∈ (n.execute ctx).2.results) ∧
    (∀ k, k ∈ keys (n.execute ctx).2.results → k ∈ keys ctx.results ∨ k ∈ allowed)

/-! ### Pipeline node library (utils.ts implementations) -/

/-- path.basename-like helper: the final path segment of a url/path. -/
def lastSegment (p : String) : String :=
  match (p.splitOn "/").getLast? with
  | some s => s
  | none => p

/-- path.extname as used on the file url: the final ".ext" of the last
segment, empty when there is no dot or only a leading dot. -/
def extname (p : String) : String :=
  match (lastSegment p).splitOn "." with
  | [] => ""
  | [_] => ""
  | ["", _] => ""
  | parts => "." ++ (parts.getLast?.getD "")

/-- The mime-type derivation of createProcessImagesNode: by lower-cased
file extension, defaulting to image/jpeg. -/
def mimeTypeOf (fileUrl : String) : String :=
  let extension := (extname fileUrl).toLower
  if extension = ".png" then "image/png"
  else if extension = ".gif" then "image/gif"
  else if extension = ".webp" then "image/webp"
  else "image/jpeg"

/-- One encoded-image descriptor pushed by createProcessImagesNode: the
data-uri built from the mime type and the base64 payload. -/
def encodeImage (fileUrl : String) (base64Image : String) : ImageContent :=
  { image_url := "data:" ++ mimeTypeOf fileUrl ++ ";base64," ++ base64Image }

/-- createProcessImagesNode from utils.ts.  fetchBase64 is the external
boundary for one file url: the authorized fetch plus the temp-file
write/read round trip, yielding the base64 encoding of the fetched bytes;
Except.error is any exception thrown inside the per-file try block, which
the source catches and logs, skipping the file.  The temp file naming
(Date.now, Math.random) only affects the discarded local path and is not
modelled. -/
def createProcessImagesNode (fetchBase64 : String → Except String String)
    (id : String) (files : List String) : PNode Value String where
  id := id
  dependencies := []
  execute := fun ctx =>
    if files.length = 0 then (.ok (.images []), ctx)
    else
      let imageContents := files.foldl (fun acc fileUrl =>
        match fetchBase64 fileUrl with
        | .ok base64Image => acc ++ [encodeImage fileUrl base64Image]
        | .error _ => acc) []
      (.ok (.images imageContents), ctx)

/-- createQueryLLMNode from utils.ts: reads the processImages result from
the shared context, sends prompt, text and images to the model (the
llmRespond boundary; an Except.error is a thrown transport error, which
propagates uncaught), announces and returns the output text.  The announce
callback is an external effect with no influence on the data flow and is
not modelled. -/
def createQueryLLMNode (llmRespond : String → String → List ImageContent → Except String String)
    (id prompt text : String) (dependencies : List String) : PNode Value String where
  id := id
  dependencies := dependencies
  execute := fun ctx =>
    let imageContents := match getKey ctx.results "processImages" with
      | some (.images l) => l
      | _ => []
    match llmRespond prompt text imageContents with
    | .error e => (.error e, ctx)
    | .ok outputText => (.ok (.str outputText), ctx)

/-- The remote-tool-client boundary seen by one linear-search node run:
the outcome of getMcpClient() and of mcpClient.callTool for the search
tool. -/
structure McpCallEnv where
  getClient : Except String Unit
  callTool : SearchParams → Except String Value

/-- createLinearSearchNode from utils.ts: look up the search-issues tool in
context.availableTools; when present, fetch the MCP client and call the
tool with (query, first 10), storing the raw result under
context.results.linearSearchResults and returning the tool/parameters
descriptor, with any thrown error caught into a
"Failed to search Linear: ..." soft result; when absent, store an
"unavailable" soft result under context.inputs.linearSearchResult and
return it. -/
def createLinearSearchNode (env : McpCallEnv) (id query : String)
    (dependencies : List String) : PNode Value String where
  id := id
  dependencies := dependencies
  execute := fun ctx =>
    let availableTools := ctx.availableTools
    match availableTools.find? (fun t => decide (t.name = McpToolName.SearchIssues)) with
    | some searchTool =>
      (match env.getClient with
       | .error e =>
         let failed : LlmResponse :=
           { tool := none, parameters := none, error := some ("Failed to search Linear: " ++ e) }
         (.ok (.llmResp failed), ctx)
       | .ok _ =>
         let parameters : SearchParams := { query := query, first := 10 }
         match env.callTool parameters with
         | .error e =>
           let failed : LlmResponse :=
             { tool := none, parameters := none, error := some ("Failed to search Linear: " ++ e) }
           (.ok (.llmResp failed), ctx)
         | .ok result =>
           let ctx1 : ExecutionContext Value :=
             { ctx with results := setKey ctx.results "linearSearchResults" result }
           (.ok (.llmResp { tool := some searchTool, parameters := some parameters }), ctx1))
    | none =>
      let errorResult : LlmResponse :=
        { tool := none, parameters := none,
          error := some "Linear search tool is currently unavailable." }
      let ctx1 : ExecutionContext Value :=
        { ctx with inputs := setKey ctx.inputs "linearSearchResult" (.llmResp errorResult) }
      (.ok (.llmResp errorResult), ctx1)

/-- createRateMatchingTicketsNode from utils.ts: reads the raw search
result stored under context.results.linearSearchResults (when it is absent
the source's `|| []` default makes the no-issues check fire and the node
returns the no-match message), otherwise formats a preview and asks the
model to rate the candidates.  The rate boundary folds the prompt-file
read, the JSON.parse of the previous queryLLM result and the model call;
an Except.error is any exception thrown there, which propagates uncaught.
The announce callback is not modelled. -/
def createRateMatchingTicketsNode (rate : Value → Option Value → Except String String)
    (id _userMessage : String) (dependencies : List String) : PNode Value String where
  id := id
  dependencies := dependencies
  execute := fun ctx =>
    match getKey ctx.results "linearSearchResults" with
    | none => (.ok (.str "No matching tickets found to rate."), ctx)
    | some linearIssues =>
      match rate linearIssues (getKey ctx.results "queryLLM") with
      | .error e => (.error e, ctx)
      | .ok ratingResult => (.ok (.str ratingResult), ctx)

/-- All external boundaries of one processMessageWithLLM run. -/
structure PipelineEnv where
  fetchBase64 : String → Except String String
  llmRespond : String → String → List ImageContent → Except String String
  mcp : McpCallEnv
  rate : Value → Option Value → Except String String
  detectPrompt : String

/-- The pipeline built by processMessageWithLLM in utils.ts: processImages,
queryLLM (depends on processImages), linearSearch (depends on queryLLM),
rateMatching (depends on linearSearch), registered in this order. -/
def processPipeline (env : PipelineEnv) (text : String) (files : List String) :
    TaskPipeline Value String :=
  let p0 : TaskPipeline Value String := {}
  let r1 := p0.addNode (createProcessImagesNode env.fetchBase64 "processImages" files)
  let r2 := r1.1.addNode (createQueryLLMNode env.llmRespond "queryLLM" env.detectPrompt text [r1.2])
  let r3 := r2.1.addNode (createLinearSearchNode env.mcp "linearSearch" text [r2.2])
  let r4 := r3.1.addNode (createRateMatchingTicketsNode env.rate "rateMatching" text [r3.2])
  r4.1

/-- The registration ids of the processMessageWithLLM pipeline. -/
def processIds : List String :=
  ["processImages", "queryLLM", "linearSearch", "rateMatching"]

/-! ### MCP client connection cache (src/mcp_client.ts) -/

/-- An MCP client handle; only its identity matters here. -/
structure Client where
  handle : Nat
deriving DecidableEq

/-- The module-level mutable state of mcp_client.ts: the cached client and
the simplified connected flag. -/
structure McpState where
  mcpClient : Option Client := none
  isConnected : Bool := false
deriving DecidableEq

/-- markAsDisconnected: clear the flag and the potentially stale client. -/
def markAsDisconnected (_s : McpState) : McpState :=
  { isConnected := false, mcpClient := none }

/-- initializeMcpClient: reset the cached state, then attempt the transport
creation and client.connect (the env outcome); on success cache the client
and set the flag, on failure leave the state cleared and rethrow. -/
def initMcpClient (env : Except String Client) (_s : McpState) :
    Except String Client × McpState :=
  match env with
  | .ok client => (.ok client, { mcpClient := some client, isConnected := true })
  | .error e => (.error e, { mcpClient := none, isConnected := false })

/-- getMcpClient, instrumented with how many connection-initialization
attempts the call performed (the last component): when the flag is down,
run initializeMcpClient once, propagating its error; then return the cached
client, or throw the not-available error when the cache or flag is still
unset. -/
def getMcpClient (env : Except String Client) (s : McpState) :
    Except String Client × McpState × Nat :=
  if s.isConnected = false then
    match initMcpClient env s with
    | (.error e, s1) => (.error e, s1, 1)
    | (.ok _, s1) =>
      match s1.mcpClient, s1.isConnected with
      | some c, true => (.ok c, s1, 1)
      | _, _ => (.error "MCP Client is not available after attempting connection.", s1, 1)
  else
    match s.mcpClient, s.isConnected with
    | some c, true => (.ok c, s, 0)
    | _, _ => (.error "MCP Client is not available after attempting connection.", s, 0)

/-! ### The no-results refinement branch of the message handler (src/app.ts) -/

/-- Map.delete on a string-keyed map. -/
def removeKey (m : List (String × α)) (k : String) : List (String × α) :=
  match m with
  | [] => []
  | (k1, v1) :: rest => if k1 = k then rest else (k1, v1) :: removeKey rest k

/-- One entry of the noResultsThreads map in app.ts: channel, the query the
failed search used, and the analysis data (of which only the product field
is ever read, by the refinement prompt). -/
structure NoResultsData where
  channelId : String
  originalQuery : String
  analysisProduct : Option String := none
deriving DecidableEq

/-- The refinement prompt generateRefinedSearchQuery builds from the
original query, the new user input and the analysis product. -/
def refinedQueryPrompt (originalQuery newUserInput : String) (product : Option String) : String :=
  "\nYou are assisting in refining a search query for Linear (issue tracking system).\n"
    ++ "The original search returned no results, and the user has provided additional information.\n\n"
    ++ "CONTEXT:\n"
    ++ "Original search query: \"" ++ originalQuery ++ "\"\n"
    ++ "Additional user input: \"" ++ newUserInput ++ "\"\n"
    ++ "Product type: \"" ++ product.getD "Unknown" ++ "\"\n\n"
    ++ "REQUIREMENTS:\n"
    ++ "1. Create a new, more effective search query that combines the original context with the new information\n"
    ++ "2. The query MUST be 256 characters or fewer\n"
    ++ "3. Focus on technical terms, specific features, product names, and error descriptions\n"
    ++ "4. Include the product type if relevant\n"
    ++ "5. Prioritize specific error messages or feature names mentioned in the new input\n"
    ++ "6. Format should be like a search engine query (keywords, not natural language)\n"
    ++ "7. Output ONLY the refined search query, nothing else\n\n"
    ++ "Refined search query:"

/-- JS String.prototype.trim, modelled on the character list (the built-in
String.trim does not reduce in the kernel). -/
def trimString (s : String) : String :=
  ⟨((s.data.dropWhile (fun c => c.isWhitespace)).reverse.dropWhile
      (fun c => c.isWhitespace)).reverse⟩

/-- substring(0, 256) capping of the generated query, on the character
list. -/
def truncate256 (s : String) : String :=
  if s.length ≤ 256 then s else ⟨s.data.take 256⟩

/-- generateRefinedSearchQuery from src/app.ts: ask the completion model
(the llmComplete boundary) with the refinement prompt; on an empty answer
or a thrown error fall back to original query + " " + new input; cap the
result at 256 characters. -/
def generateRefinedSearchQuery (llmComplete : String → Except String String)
    (originalQuery newUserInput : String) (product : Option String) : String :=
  let prompt := refinedQueryPrompt originalQuery newUserInput product
  match llmComplete prompt with
  | .ok rawText =>
    let refinedQuery := trimString rawText
    if refinedQuery = "" then truncate256 (trimString (originalQuery ++ " " ++ newUserInput))
    else truncate256 refinedQuery
  | .error _ => truncate256 (trimString (originalQuery ++ " " ++ newUserInput))

/-- The observable outcome of the no-results follow-up branch: whether the
thread tracking was cleared, the refined query generateRefinedSearchQuery
produced, and the query string actually passed to executeLinearSearch. -/
structure NoResultsBranchOutcome where
  trackingCleared : Bool
  refinedQuery : Option String
  searchedQuery : Option String
deriving DecidableEq

/-- The branch of the app.message handler taken when the incoming thread is
tracked in noResultsThreads (src/app.ts lines 287-330): read the tracked
data, clear the tracking, generate the refined query from the original
query, the new message text and the prior analysis data, then call
executeLinearSearch with query: noResultsData.originalQuery (as the source
does on line 319).  Returns the updated tracking map and the outcome. -/
def handleNoResultsFollowUp (llmComplete : String → Except String String)
    (noResultsThreads : List (String × NoResultsData))
    (threadTs text : String) :
    List (String × NoResultsData) × NoResultsBranchOutcome :=
  match getKey noResultsThreads threadTs with
  | none =>
    (noResultsThreads,
     { trackingCleared := false, refinedQuery := none, searchedQuery := none })
  | some noResultsData =>
    let cleared := removeKey noResultsThreads threadTs
    let refinedQuery := generateRefinedSearchQuery llmComplete
      noResultsData.originalQuery text noResultsData.analysisProduct
    (cleared,
     { trackingCleared := true
       refinedQuery := some refinedQuery
       searchedQuery := some noResultsData.originalQuery })

/-! ### Concrete fixtures used to instantiate the theorems on real inputs -/

/-- The "unavailable" soft-failure value of createLinearSearchNode. -/
def searchUnavailableResult : LlmResponse :=
  { tool := none, parameters := none,
    error := some "Linear search tool is currently unavailable." }

/-- A do-nothing execute function for fixture nodes. -/
def fixtureExec (s : String) :
    ExecutionContext Value → Except String Value × ExecutionContext Value :=
  fun ctx => (.ok (.str s), ctx)

/-- Fixture: a node with no dependencies. -/
def nodeB : PNode Value String :=
  { id := "b", dependencies := [], execute := fixtureExec "rb" }

/-- Fixture: a node depending on nodeB, registered first. -/
def nodeA : PNode Value String :=
  { id := "a", dependencies := ["b"], execute := fixtureExec "ra" }

/-- Fixture pipeline: nodeA (depending on nodeB) registered before nodeB. -/
def pipeAB : TaskPipeline Value String :=
  (((TaskPipeline.mk []).addNode nodeA).1.addNode nodeB).1

/-- Fixture: a two-node dependency cycle. -/
def pipeCyc : TaskPipeline Value String :=
  (((TaskPipeline.mk []).addNode
      { id := "x", dependencies := ["y"], execute := fixtureExec "rx" }).1.addNode
      { id := "y", dependencies := ["x"], execute := fixtureExec "ry" }).1

/-- Fixture: a node declaring an unregistered dependency. -/
def pipeMissing : TaskPipeline Value String :=
  ((TaskPipeline.mk []).addNode
      { id := "a", dependencies := ["zz"], execute := fixtureExec "ra" }).1

/-- Fixture: a dependency-free node that succeeds. -/
def nodeFirst : PNode Value String :=
  { id := "first", dependencies := [], execute := fixtureExec "r1" }

/-- Fixture: a node that always throws. -/
def nodeBoom : PNode Value String :=
  { id := "boom", dependencies := ["first"], execute := fun ctx => (.error "boom", ctx) }

/-- Fixture: a node that would run after the failing one. -/
def nodeLast : PNode Value String :=
  { id := "last", dependencies := ["boom"], execute := fixtureExec "r3" }

/-- Fixture: a three-node chain whose middle node throws. -/
def pipeFail : TaskPipeline Value String :=
  ((((TaskPipeline.mk []).addNode nodeFirst).1.addNode nodeBoom).1.addNode nodeLast).1

/-- The context as the linear-search fallback leaves it: the soft-failure
value recorded under context.inputs.linearSearchResult. -/
def unavailableCtx (ctx : ExecutionContext Value) : ExecutionContext Value :=
  { ctx with inputs := setKey ctx.inputs "linearSearchResult" (.llmResp searchUnavailableResult) }

/-- A context whose tool snapshot lacks the search-issues capability. -/
def noSearchCtx : ExecutionContext Value :=
  { availableTools := [{ name := McpToolName.GetViewer }] }

/-- Fixture client environment that would succeed if called. -/
def mcpEnvOk : McpCallEnv :=
  { getClient := .ok (), callTool := fun _ => .ok (.raw "r") }

/-- Fixture client environment that would fail if called. -/
def mcpEnvDown : McpCallEnv :=
  { getClient := .error "down", callTool := fun _ => .error "down" }

/-- Fixture: first node registered under the id "dup". -/
def nodeDup1 : PNode Value String :=
  { id := "dup", dependencies := [], execute := fixtureExec "one" }

/-- Fixture: second node registered under the id "dup". -/
def nodeDup2 : PNode Value String :=
  { id := "dup", dependencies := [], execute := fixtureExec "two" }

/-- All-success environment used to exhibit one concrete pipeline run. -/
def cexEnv : PipelineEnv where
  fetchBase64 := fun _ => .ok "QUJD"
  llmRespond := fun _ _ _ => .ok "analysis"
  mcp := { getClient := .ok (), callTool := fun _ => .ok (.raw "issues") }
  rate := fun _ _ => .ok "rated"
  detectPrompt := "detect"

/-- A context whose tool snapshot contains the search-issues tool. -/
def cexCtx : ExecutionContext Value :=
  { availableTools := [{ name := McpToolName.SearchIssues }] }

/-- A fetch environment whose second fixture file fails. -/
def cexFetch : String → Except String String :=
  fun f => if f = "u2.png" then .error "http 500" else .ok ("payload-" ++ f)

/-! ## Lemmas about the record operations -/

theorem getKey_isSome_of_mem_keys {m : List (String × α)} {k : String}
    (h : k ∈ keys m) : (getKey m k).isSome := by
  induction m with
  | nil => simp [keys] at h
  | cons p rest ih =>
    simp only [keys, List.map_cons, List.mem_cons] at h
    simp only [getKey]
    split
    · rfl
    · rename_i hne
      rcases h with h | h
      · exact absurd h.symm hne
      · exact ih h

theorem mem_keys_of_getKey_isSome {m : List (String × α)} {k : String}
    (h : (getKey m k).isSome) : k ∈ keys m := by
  induction m with
  | nil => simp [getKey] at h
  | cons p rest ih =>
    simp only [getKey] at h
    simp only [keys, List.map_cons, List.mem_cons]
    split at h
    · rename_i heq
      exact Or.inl heq.symm
    · exact Or.inr (ih h)

theorem getKey_eq_none_of_not_mem_keys {m : List (String × α)} {k : String}
    (h : k ∉ keys m) : getKey m k = none := by
  cases hg : getKey m k with
  | none => rfl
  | some v => exact absurd (mem_keys_of_getKey_isSome (by simp [hg])) h

theorem mem_setKey_self (m : List (String × α)) (k : String) (v : α) :
    (k, v) ∈ setKey m k v := by
  induction m with
  | nil => simp [setKey]
  | cons p rest ih =>
    simp only [setKey]
    split
    · simp
    · simpa using Or.inr ih

theorem mem_setKey_of_ne {m : List (String × α)} {j k : String} {w : α} (v : α)
    (hne : j ≠ k) (h : (j, w) ∈ m) : (j, w) ∈ setKey m k v := by
  induction m with
  | nil => simp at h
  | cons p rest ih =>
    obtain ⟨k1, v1⟩ := p
    simp only [setKey]
    split
    · rename_i heq
      rcases List.mem_cons.mp h with h | h
      · have hj : j = k1 := congrArg Prod.fst h
        exact absurd (hj.trans heq) hne
      · exact List.mem_cons.mpr (Or.inr h)
    · rcases List.mem_cons.mp h with h | h
      · exact List.mem_cons.mpr (Or.inl h)
      · exact List.mem_cons.mpr (Or.inr (ih h))

theorem mem_keys_setKey {m : List (String × α)} {j k : String} {v : α}
    (h : j ∈ keys (setKey m k v)) : j ∈ keys m ∨ j = k := by
  induction m with
  | nil => simpa [setKey, keys] using h
  | cons p rest ih =>
    simp only [setKey] at h
    split at h
    · rename_i heq
      simp only [keys, List.map_cons, List.mem_cons] at h ⊢
      rcases h with h | h
      · exact Or.inr h
      · exact Or.inl (Or.inr h)
    · simp only [keys, List.map_cons, List.mem_cons] at h ⊢
      rcases h with h | h
      · exact Or.inl (Or.inl h)
      · rcases ih h with h | h
        · exact Or.inl (Or.inr h)
        · exact Or.inr h

theorem setKey_eq_append_of_not_mem {m : List (String × α)} {k : String}
    (h : k ∉ keys m) (v : α) : setKey m k v = m ++ [(k, v)] := by
  induction m with
  | nil => simp [setKey]
  | cons p rest ih =>
    simp only [keys, List.map_cons, List.mem_cons, not_or] at h
    simp only [setKey]
    split
    · rename_i heq
      exact absurd heq.symm h.1
    · simp [ih h.2]

/-! ## Lemmas about the depth-first order resolution -/

theorem stInv_empty (nodes : List (String × PNode α ε)) : StInv nodes {} := by
  refine ⟨List.nodup_nil, ?_, ?_, ?_⟩ <;> intro x hx <;> simp at hx

theorem visit_visitList_mono (nodes : List (String × PNode α ε)) (fuel : Nat) :
    (∀ nodeId st st', visit nodes fuel nodeId st = .ok st' →
      ∀ x ∈ st.visited, x ∈ st'.visited) ∧
    (∀ nodeId l st st', visitList nodes fuel nodeId l st = .ok st' →
      ∀ x ∈ st.visited, x ∈ st'.visited) := by
  induction fuel with
  | zero =>
    constructor
    · intro nodeId st st' h
      simp [visit] at h
    · intro nodeId l st st' h
      cases l with
      | nil =>
        simp only [visitList] at h
        injection h with h
        subst h
        exact fun x hx => hx
      | cons d rest =>
        simp only [visitList] at h
        split at h
        · simp at h
        · simp [visit] at h
  | succ fuel ih =>
    have hv : ∀ nodeId st st', visit nodes (fuel + 1) nodeId st = .ok st' →
        ∀ x ∈ st.visited, x ∈ st'.visited := by
      intro nodeId st st' h x hx
      simp only [visit] at h
      split at h
      · injection h with h
        subst h
        exact hx
      · split at h
        · simp at h
        · split at h
          · simp at h
          · rename_i st2 heq2
            injection h with h
            subst h
            exact ih.2 _ _ _ _ heq2 x (List.mem_cons_of_mem _ hx)
    refine ⟨hv, ?_⟩
    intro nodeId l
    induction l with
    | nil =>
      intro st st' h
      simp only [visitList] at h
      injection h with h
      subst h
      exact fun x hx => hx
    | cons d rest ihl =>
      intro st st' h x hx
      simp only [visitList] at h
      split at h
      · simp at h
      · split at h
        · simp at h
        · rename_i st1 heq1
          exact ihl _ _ h x (hv _ _ _ heq1 x hx)

theorem visit_mono {nodes : List (String × PNode α ε)} {fuel : Nat}
    {nodeId : String} {st st' : DfsState} (h : visit nodes fuel nodeId st = .ok st') :
    ∀ x ∈ st.visited, x ∈ st'.visited :=
  (visit_visitList_mono nodes fuel).1 nodeId st st' h

theorem visitList_mono {nodes : List (String × PNode α ε)} {fuel : Nat}
    {nodeId : String} {l : List String} {st st' : DfsState}
    (h : visitList nodes fuel nodeId l st = .ok st') :
    ∀ x ∈ st.visited, x ∈ st'.visited :=
  (visit_visitList_mono nodes fuel).2 nodeId l st st' h

theorem visitPost_refl (nodes : List (String × PNode α ε)) (st : DfsState) :
    VisitPost nodes st st := by
  refine ⟨fun x hx => hx, ⟨[], by simp⟩, fun x hx => Or.inl hx, fun x hx => Or.inl hx, id⟩

theorem visitPost_trans {nodes : List (String × PNode α ε)} {st1 st2 st3 : DfsState}
    (h12 : VisitPost nodes st1 st2) (h23 : VisitPost nodes st2 st3) :
    VisitPost nodes st1 st3 := by
  obtain ⟨m12, ⟨t12, ho12⟩, n12, f12, i12⟩ := h12
  obtain ⟨m23, ⟨t23, ho23⟩, n23, f23, i23⟩ := h23
  refine ⟨fun x hx => m23 x (m12 x hx), ⟨t12 ++ t23, by simp [ho23, ho12]⟩, ?_, ?_,
    fun hi => i23 (i12 hi)⟩
  · intro x hx
    rcases n23 x hx with hx2 | hx3
    · rcases n12 x hx2 with hx1 | hx2o
      · exact Or.inl hx1
      · exact Or.inr (by simp [ho23, hx2o])
    · exact Or.inr hx3
  · intro x hx
    rcases f23 x hx with hx2 | hnv2
    · rcases f12 x hx2 with hx1 | hnv1
      · exact Or.inl hx1
      · exact Or.inr hnv1
    · exact Or.inr (fun hv1 => hnv2 (m12 x hv1))

theorem visit_visitList_post (nodes : List (String × PNode α ε)) (fuel : Nat) :
    (∀ nodeId st st', visit nodes fuel nodeId st = .ok st' →
      VisitPost nodes st st' ∧ nodeId ∈ st'.visited) ∧
    (∀ nodeId l st st', visitList nodes fuel nodeId l st = .ok st' →
      VisitPost nodes st st' ∧ ∀ d ∈ l, d ∈ st'.visited ∧ d ∈ keys nodes) := by
  induction fuel with
  | zero =>
    constructor
    · intro nodeId st st' h
      simp [visit] at h
    · intro nodeId l st st' h
      cases l with
      | nil =>
        simp only [visitList] at h
        injection h with h
        subst h
        exact ⟨visitPost_refl nodes st, by simp⟩
      | cons d rest =>
        simp only [visitList] at h
        split at h
        · simp at h
        · simp [visit] at h
  | succ fuel ih =>
    have hv : ∀ nodeId st st', visit nodes (fuel + 1) nodeId st = .ok st' →
        VisitPost nodes st st' ∧ nodeId ∈ st'.visited := by
      intro nodeId st st' h
      simp only [visit] at h
      split at h
      · rename_i hvis
        injection h with h
        subst h
        exact ⟨visitPost_refl nodes st, hvis⟩
      · rename_i hvis
        split at h
        · simp at h
        · rename_i node hget
          split at h
          · simp at h
          · rename_i st2 heq2
            injection h with h
            subst h
            obtain ⟨P2, hdeps⟩ := ih.2 nodeId node.dependencies _ _ heq2
            obtain ⟨m2, ⟨t2, ho2⟩, n2, f2, i2⟩ := P2
            have hkey : nodeId ∈ keys nodes :=
              mem_keys_of_getKey_isSome (by simp [hget])
            have hdepsOf : depsOf nodes nodeId = node.dependencies := by
              simp [depsOf, hget]
            -- the pushed state
            refine ⟨⟨?_, ?_, ?_, ?_, ?_⟩, ?_⟩
            · intro x hx
              exact m2 x (List.mem_cons_of_mem _ hx)
            · exact ⟨t2 ++ [nodeId], by simp [ho2]⟩
            · intro x hx
              rcases n2 x hx with hx1 | hxo
              · rcases List.mem_cons.mp hx1 with rfl | hxv
                · exact Or.inr (by simp)
                · exact Or.inl hxv
              · exact Or.inr (by simp [List.mem_append.mpr (Or.inl hxo)])
            · intro x hx
              simp only [List.mem_append, List.mem_singleton] at hx
              rcases hx with hxo | rfl
              · rcases f2 x hxo with hx1 | hnv
                · exact Or.inl hx1
                · exact Or.inr (fun hxv => hnv (List.mem_cons_of_mem _ hxv))
              · exact Or.inr hvis
            · intro hsi
              have hsi1 : StInv nodes { st with visited := nodeId :: st.visited } := by
                obtain ⟨hnd, hov, hok, hodep⟩ := hsi
                exact ⟨hnd, fun x hx => List.mem_cons_of_mem _ (hov x hx), hok, hodep⟩
              obtain ⟨hnd2, hov2, hok2, hodep2⟩ := i2 hsi1
              have hnotin : nodeId ∉ st2.order := by
                intro hmem
                rcases f2 nodeId hmem with hx1 | hnv
                · exact hvis (hsi.2.1 nodeId hx1)
                · exact hnv (by simp)
              refine ⟨?_, ?_, ?_, ?_⟩
              · exact List.Nodup.append hnd2 (List.nodup_singleton nodeId)
                  (by simpa [List.disjoint_singleton] using hnotin)
              · intro x hx
                rcases List.mem_append.mp hx with hxo | hxs
                · exact hov2 x hxo
                · exact (List.mem_singleton.mp hxs) ▸ m2 nodeId (by simp)
              · intro x hx
                rcases List.mem_append.mp hx with hxo | hxs
                · exact hok2 x hxo
                · exact (List.mem_singleton.mp hxs) ▸ hkey
              · intro x hx d hd
                rcases List.mem_append.mp hx with hxo | hxs
                · exact hodep2 x hxo d hd
                · have hx' := List.mem_singleton.mp hxs
                  subst hx'
                  rw [hdepsOf] at hd
                  exact (hdeps d hd).2
            · exact m2 nodeId (by simp)
    refine ⟨hv, ?_⟩
    intro nodeId l
    induction l with
    | nil =>
      intro st st' h
      simp only [visitList] at h
      injection h with h
      subst h
      exact ⟨visitPost_refl nodes st, by simp⟩
    | cons d rest ihl =>
      intro st st' h
      simp only [visitList] at h
      split at h
      · simp at h
      · rename_i nd hget
        split at h
        · simp at h
        · rename_i st1 heq1
          obtain ⟨P1, hdv⟩ := hv d _ _ heq1
          obtain ⟨P2, hrest⟩ := ihl _ _ h
          refine ⟨visitPost_trans P1 P2, ?_⟩
          intro x hx
          rcases List.mem_cons.mp hx with rfl | hxr
          · exact ⟨P2.1 x hdv, mem_keys_of_getKey_isSome (by simp [hget])⟩
          · exact hrest x hxr

theorem depsOrdered_nil (nodes : List (String × PNode α ε)) : DepsOrdered nodes [] := by
  intro l1 n l2 heq
  exact absurd heq.symm (by simp)

theorem depsOrdered_append {nodes : List (String × PNode α ε)} {l : List String} {n : String}
    (h : DepsOrdered nodes l) (hn : ∀ d ∈ depsOf nodes n, d ∈ l) :
    DepsOrdered nodes (l ++ [n]) := by
  intro l1 m l2 heq d hd
  rcases List.eq_nil_or_concat l2 with rfl | ⟨l2t, y, rfl⟩
  · have hlen : l.length = l1.length := by
      have h3 := congrArg List.length heq
      simp only [List.length_append, List.length_cons, List.length_nil] at h3
      omega
    obtain ⟨h1, h2⟩ := List.append_inj heq hlen
    have hm : n = m := by simpa using h2
    subst hm
    subst h1
    exact hn d hd
  · have heq2 : l ++ [n] = (l1 ++ m :: l2t) ++ [y] := by simp [heq]
    have hlen : l.length = (l1 ++ m :: l2t).length := by
      have h3 := congrArg List.length heq2
      simp only [List.length_append, List.length_cons, List.length_nil] at h3 ⊢
      omega
    obtain ⟨h1, _⟩ := List.append_inj heq2 hlen
    exact h l1 m l2t h1 d hd

theorem visit_visitList_ord (nodes : List (String × PNode α ε))
    (hacyc : Acyclic nodes) (fuel : Nat) :
    (∀ nodeId st st' (G : List String), visit nodes fuel nodeId st = .ok st' →
      StInv nodes st → DepsOrdered nodes st.order →
      (∀ x ∈ st.visited, x ∈ st.order ∨ x ∈ G) →
      (∀ g ∈ G, Relation.ReflTransGen (DepStep nodes) g nodeId) →
      DepsOrdered nodes st'.order) ∧
    (∀ nodeId l st st' (G : List String), visitList nodes fuel nodeId l st = .ok st' →
      StInv nodes st → DepsOrdered nodes st.order →
      (∀ x ∈ st.visited, x ∈ st.order ∨ x ∈ nodeId :: G) →
      (∀ g ∈ G, Relation.ReflTransGen (DepStep nodes) g nodeId) →
      (∀ d ∈ l, DepStep nodes nodeId d) →
      DepsOrdered nodes st'.order) := by
  induction fuel with
  | zero =>
    constructor
    · intro nodeId st st' G h
      simp [visit] at h
    · intro nodeId l st st' G h hsi hord hgray hG hdeps
      cases l with
      | nil =>
        simp only [visitList] at h
        injection h with h
        subst h
        exact hord
      | cons d rest =>
        simp only [visitList] at h
        split at h
        · simp at h
        · simp [visit] at h
  | succ fuel ih =>
    have hv : ∀ nodeId st st' (G : List String), visit nodes (fuel + 1) nodeId st = .ok st' →
        StInv nodes st → DepsOrdered nodes st.order →
        (∀ x ∈ st.visited, x ∈ st.order ∨ x ∈ G) →
        (∀ g ∈ G, Relation.ReflTransGen (DepStep nodes) g nodeId) →
        DepsOrdered nodes st'.order := by
      intro nodeId st st' G h hsi hord hgray hG
      simp only [visit] at h
      split at h
      · injection h with h
        subst h
        exact hord
      · rename_i hvis
        split at h
        · simp at h
        · rename_i node hget
          split at h
          · simp at h
          · rename_i st2 heq2
            injection h with h
            subst h
            have hdepsOf : depsOf nodes nodeId = node.dependencies := by
              simp [depsOf, hget]
            have hsi1 : StInv nodes { st with visited := nodeId :: st.visited } := by
              obtain ⟨hnd, hov, hok, hodep⟩ := hsi
              exact ⟨hnd, fun x hx => List.mem_cons_of_mem _ (hov x hx), hok, hodep⟩
            have hgray1 : ∀ x ∈ ({ st with visited := nodeId :: st.visited } : DfsState).visited,
                x ∈ ({ st with visited := nodeId :: st.visited } : DfsState).order ∨ x ∈ nodeId :: G := by
              intro x hx
              rcases List.mem_cons.mp hx with rfl | hxv
              · exact Or.inr (by simp)
              · rcases hgray x hxv with hxo | hxG
                · exact Or.inl hxo
                · exact Or.inr (List.mem_cons_of_mem _ hxG)
            have hord2 : DepsOrdered nodes st2.order :=
              ih.2 nodeId node.dependencies _ _ G heq2 hsi1 hord hgray1 hG
                (fun d hd => by simpa [DepStep, hdepsOf] using hd)
            -- all dependencies of nodeId are in st2.order
            obtain ⟨P2, hdeps2⟩ := (visit_visitList_post nodes fuel).2 nodeId node.dependencies _ _ heq2
            have hgray2 : ∀ x ∈ st2.visited, x ∈ st2.order ∨ x ∈ nodeId :: G := by
              intro x hx
              rcases P2.2.2.1 x hx with hx1 | hxo
              · rcases hgray1 x hx1 with hxo1 | hxG
                · obtain ⟨t2, ho2⟩ := P2.2.1
                  exact Or.inl (by simp [ho2]; exact Or.inl hxo1)
                · exact Or.inr hxG
              · exact Or.inl hxo
            have hdin : ∀ d ∈ depsOf nodes nodeId, d ∈ st2.order := by
              intro d hd
              have hdv : d ∈ st2.visited := (hdeps2 d (hdepsOf ▸ hd)).1
              rcases hgray2 d hdv with hdo | hdng
              · exact hdo
              · exfalso
                rcases List.mem_cons.mp hdng with rfl | hdG
                · exact hacyc d (Relation.TransGen.single hd)
                · exact hacyc nodeId (Relation.TransGen.head' hd (hG d hdG))
            exact depsOrdered_append hord2 hdin
    refine ⟨hv, ?_⟩
    intro nodeId l
    induction l with
    | nil =>
      intro st st' G h hsi hord hgray hG hdeps
      simp only [visitList] at h
      injection h with h
      subst h
      exact hord
    | cons d rest ihl =>
      intro st st' G h hsi hord hgray hG hdeps
      simp only [visitList] at h
      split at h
      · simp at h
      · split at h
        · simp at h
        · rename_i st1 heq1
          have hGd : ∀ g ∈ nodeId :: G, Relation.ReflTransGen (DepStep nodes) g d := by
            intro g hg
            rcases List.mem_cons.mp hg with rfl | hgG
            · exact Relation.ReflTransGen.single (hdeps d (by simp))
            · exact Relation.ReflTransGen.tail (hG g hgG) (hdeps d (by simp))
          have hord1 : DepsOrdered nodes st1.order :=
            hv d st st1 (nodeId :: G) heq1 hsi hord hgray hGd
          obtain ⟨P1, hd1⟩ := (visit_visitList_post nodes (fuel + 1)).1 d st st1 heq1
          have hsi1 : StInv nodes st1 := P1.2.2.2.2 hsi
          have hgray1 : ∀ x ∈ st1.visited, x ∈ st1.order ∨ x ∈ nodeId :: G := by
            intro x hx
            rcases P1.2.2.1 x hx with hx0 | hxo
            · rcases hgray x hx0 with hxo0 | hxG
              · obtain ⟨t1, ho1⟩ := P1.2.1
                exact Or.inl (by simp [ho1]; exact Or.inl hxo0)
              · exact Or.inr hxG
            · exact Or.inl hxo
          exact ihl _ _ _ h hsi1 hord1 hgray1 hG (fun x hx => hdeps x (List.mem_cons_of_mem _ hx))

theorem length_filter_le_of_imp {l : List String} {p q : String → Bool}
    (h : ∀ x ∈ l, p x = true → q x = true) :
    (l.filter p).length ≤ (l.filter q).length := by
  induction l with
  | nil => simp
  | cons a l ih =>
    have ih2 := ih (fun x hx hp => h x (List.mem_cons_of_mem _ hx) hp)
    by_cases hp : p a = true
    · have hq := h a (by simp) hp
      simp [List.filter_cons, hp, hq]
      omega
    · have hp2 : p a = false := by simpa using hp
      cases hq : q a <;> simp [List.filter_cons, hp2, hq] <;> omega

theorem unvisitedCount_le_of_subset {nodes : List (String × PNode α ε)}
    {st st' : DfsState} (h : ∀ x ∈ st.visited, x ∈ st'.visited) :
    unvisitedCount nodes st' ≤ unvisitedCount nodes st := by
  unfold unvisitedCount
  refine length_filter_le_of_imp ?_
  intro x _ hx
  simp only [decide_eq_true_eq] at hx ⊢
  exact fun hmem => hx (h x hmem)

theorem unvisited_filter_lt (vis : List String) (nodeId : String) :
    ∀ ks : List String, nodeId ∈ ks → nodeId ∉ vis →
    (ks.filter (fun k => decide (k ∉ nodeId :: vis))).length <
      (ks.filter (fun k => decide (k ∉ vis))).length := by
  intro ks
  induction ks with
  | nil => intro h; simp at h
  | cons a ks ih =>
    intro hmem hnv
    rw [List.filter_cons, List.filter_cons]
    by_cases ha : a = nodeId
    · subst ha
      have h1 : (decide (a ∉ a :: vis)) = false := by simp
      have h2 : (decide (a ∉ vis)) = true := decide_eq_true hnv
      rw [h1, h2, if_neg (by simp), if_pos rfl]
      have hle : (ks.filter (fun k => decide (k ∉ a :: vis))).length ≤
          (ks.filter (fun k => decide (k ∉ vis))).length := by
        refine length_filter_le_of_imp ?_
        intro x _ hx
        simp only [decide_eq_true_eq, List.mem_cons, not_or] at hx ⊢
        exact hx.2
      simp only [List.length_cons]
      omega
    · have hkey2 : nodeId ∈ ks := by
        rcases List.mem_cons.mp hmem with h | h
        · exact absurd h.symm ha
        · exact h
      have ih2 := ih hkey2 hnv
      have hsame : (decide (a ∉ nodeId :: vis)) = (decide (a ∉ vis)) := by
        by_cases hav : a ∈ vis
        · simp [hav]
        · simp [hav, ha]
      rw [hsame]
      cases hq : (decide (a ∉ vis)) with
      | false => rw [if_neg (by simp), if_neg (by simp)]; exact ih2
      | true => rw [if_pos rfl, if_pos rfl]; simp only [List.length_cons]; omega

theorem unvisitedCount_cons_lt {nodes : List (String × PNode α ε)}
    {st : DfsState} {nodeId : String}
    (hkey : nodeId ∈ keys nodes) (hnv : nodeId ∉ st.visited) :
    unvisitedCount nodes { st with visited := nodeId :: st.visited } < unvisitedCount nodes st :=
  unvisited_filter_lt st.visited nodeId (keys nodes) hkey hnv

theorem visit_visitList_fuel (nodes : List (String × PNode α ε)) (fuel : Nat) :
    (∀ nodeId st, unvisitedCount nodes st < fuel →
      visit nodes fuel nodeId st ≠ .error .fuelExhausted) ∧
    (∀ nodeId l st, unvisitedCount nodes st < fuel →
      visitList nodes fuel nodeId l st ≠ .error .fuelExhausted) := by
  induction fuel with
  | zero =>
    constructor
    · intro nodeId st hcnt
      omega
    · intro nodeId l st hcnt
      omega
  | succ fuel ih =>
    have hv : ∀ nodeId st, unvisitedCount nodes st < fuel + 1 →
        visit nodes (fuel + 1) nodeId st ≠ .error .fuelExhausted := by
      intro nodeId st hcnt h
      simp only [visit] at h
      split at h
      · simp at h
      · rename_i hvis
        split at h
        · simp at h
        · rename_i node hget
          split at h
          · rename_i e heq
            have hkey : nodeId ∈ keys nodes := mem_keys_of_getKey_isSome (by simp [hget])
            have hlt : unvisitedCount nodes { st with visited := nodeId :: st.visited } < fuel :=
              Nat.lt_of_lt_of_le (unvisitedCount_cons_lt hkey hvis) (by omega)
            have := ih.2 nodeId node.dependencies _ hlt
            injection h with h
            exact this (h ▸ heq)
          · simp at h
    refine ⟨hv, ?_⟩
    intro nodeId l
    induction l with
    | nil =>
      intro st hcnt h
      simp only [visitList] at h
      simp at h
    | cons d rest ihl =>
      intro st hcnt h
      simp only [visitList] at h
      split at h
      · simp at h
      · split at h
        · rename_i e heq
          injection h with h
          exact hv d st hcnt (h ▸ heq)
        · rename_i st1 heq1
          have hle : unvisitedCount nodes st1 ≤ unvisitedCount nodes st :=
            unvisitedCount_le_of_subset (visit_mono heq1)
          exact ihl st1 (by omega) h

theorem visit_visitList_total (nodes : List (String × PNode α ε))
    (hdc : DepClosed nodes) (fuel : Nat) :
    (∀ nodeId st, unvisitedCount nodes st < fuel → nodeId ∈ keys nodes →
      ∃ st', visit nodes fuel nodeId st = .ok st') ∧
    (∀ nodeId l st, unvisitedCount nodes st < fuel → (∀ d ∈ l, d ∈ keys nodes) →
      ∃ st', visitList nodes fuel nodeId l st = .ok st') := by
  induction fuel with
  | zero =>
    constructor
    · intro nodeId st hcnt
      omega
    · intro nodeId l st hcnt
      omega
  | succ fuel ih =>
    have hv : ∀ nodeId st, unvisitedCount nodes st < fuel + 1 → nodeId ∈ keys nodes →
        ∃ st', visit nodes (fuel + 1) nodeId st = .ok st' := by
      intro nodeId st hcnt hkey
      simp only [visit]
      split
      · exact ⟨st, rfl⟩
      · rename_i hvis
        obtain ⟨node, hget⟩ := Option.isSome_iff_exists.mp (getKey_isSome_of_mem_keys hkey)
        have hlt : unvisitedCount nodes { st with visited := nodeId :: st.visited } < fuel :=
          Nat.lt_of_lt_of_le (unvisitedCount_cons_lt hkey hvis) (by omega)
        have hdeps : ∀ d ∈ node.dependencies, d ∈ keys nodes := by
          intro d hd
          exact hdc nodeId hkey d (by simp [depsOf, hget, hd])
        obtain ⟨st2, heq2⟩ := ih.2 nodeId node.dependencies _ hlt hdeps
        refine ⟨{ st2 with order := st2.order ++ [nodeId] }, ?_⟩
        simp only [hget, heq2]
    refine ⟨hv, ?_⟩
    intro nodeId l
    induction l with
    | nil =>
      intro st hcnt hl
      exact ⟨st, by simp [visitList]⟩
    | cons d rest ihl =>
      intro st hcnt hl
      simp only [visitList]
      obtain ⟨nd, hget⟩ := Option.isSome_iff_exists.mp
        (getKey_isSome_of_mem_keys (hl d (by simp)))
      rw [hget]
      obtain ⟨st1, heq1⟩ := hv d st hcnt (hl d (by simp))
      rw [heq1]
      have hle : unvisitedCount nodes st1 ≤ unvisitedCount nodes st :=
        unvisitedCount_le_of_subset (visit_mono heq1)
      exact ihl st1 (by omega) (fun x hx => hl x (List.mem_cons_of_mem _ hx))

theorem visit_visitList_err (nodes : List (String × PNode α ε)) (fuel : Nat) :
    (∀ nodeId st e, visit nodes fuel nodeId st = .error e → nodeId ∈ keys nodes →
      e = .fuelExhausted ∨ ∃ d n, e = .depNotFound d n ∧ n ∈ keys nodes ∧
        d ∈ depsOf nodes n ∧ d ∉ keys nodes) ∧
    (∀ nodeId l st e, visitList nodes fuel nodeId l st = .error e → nodeId ∈ keys nodes →
      (∀ d ∈ l, d ∈ depsOf nodes nodeId) →
      e = .fuelExhausted ∨ ∃ d n, e = .depNotFound d n ∧ n ∈ keys nodes ∧
        d ∈ depsOf nodes n ∧ d ∉ keys nodes) := by
  induction fuel with
  | zero =>
    have hv : ∀ nodeId st (e : PipelineError ε), visit nodes 0 nodeId st = .error e →
        nodeId ∈ keys nodes →
        e = .fuelExhausted ∨ ∃ d n, e = .depNotFound d n ∧ n ∈ keys nodes ∧
          d ∈ depsOf nodes n ∧ d ∉ keys nodes := by
      intro nodeId st e h hkey
      simp only [visit] at h
      injection h with h
      exact Or.inl h.symm
    refine ⟨hv, ?_⟩
    intro nodeId l st e h hkey hdeps
    cases l with
    | nil =>
      simp only [visitList] at h
      simp at h
    | cons d rest =>
      simp only [visitList] at h
      split at h
      · rename_i hget
        injection h with h
        refine Or.inr ⟨d, nodeId, h.symm, hkey, hdeps d (by simp), ?_⟩
        intro hmem
        have := getKey_isSome_of_mem_keys (m := nodes) hmem
        simp [hget] at this
      · split at h
        · rename_i e1 heq1
          injection h with h
          subst h
          exact hv d st e1 heq1 (mem_keys_of_getKey_isSome (by simp_all))
        · rename_i st1 heq1
          exact absurd heq1 (by simp [visit])
  | succ fuel ih =>
    have hv : ∀ nodeId st (e : PipelineError ε), visit nodes (fuel + 1) nodeId st = .error e →
        nodeId ∈ keys nodes →
        e = .fuelExhausted ∨ ∃ d n, e = .depNotFound d n ∧ n ∈ keys nodes ∧
          d ∈ depsOf nodes n ∧ d ∉ keys nodes := by
      intro nodeId st e h hkey
      simp only [visit] at h
      split at h
      · simp at h
      · split at h
        · rename_i hget
          have := getKey_isSome_of_mem_keys (m := nodes) hkey
          simp [hget] at this
        · rename_i node hget
          split at h
          · rename_i e1 heq1
            injection h with h
            subst h
            have hdeps : ∀ d ∈ node.dependencies, d ∈ depsOf nodes nodeId := by
              intro d hd
              simp [depsOf, hget, hd]
            exact ih.2 nodeId node.dependencies _ e1 heq1 hkey hdeps
          · simp at h
    refine ⟨hv, ?_⟩
    intro nodeId l
    induction l with
    | nil =>
      intro st e h hkey hdeps
      simp only [visitList] at h
      simp at h
    | cons d rest ihl =>
      intro st e h hkey hdeps
      simp only [visitList] at h
      split at h
      · rename_i hget
        injection h with h
        refine Or.inr ⟨d, nodeId, h.symm, hkey, hdeps d (by simp), ?_⟩
        intro hmem
        have := getKey_isSome_of_mem_keys (m := nodes) hmem
        simp [hget] at this
      · rename_i nd hget
        split at h
        · rename_i e1 heq1
          injection h with h
          subst h
          exact hv d st e1 heq1 (mem_keys_of_getKey_isSome (by simp [hget]))
        · rename_i st1 heq1
          exact ihl st1 e h hkey (fun x hx => hdeps x (List.mem_cons_of_mem _ hx))

theorem visitAll_post {nodes : List (String × PNode α ε)} {fuel : Nat} :
    ∀ ks st st', visitAll nodes fuel ks st = .ok st' →
      VisitPost nodes st st' ∧ ∀ k ∈ ks, k ∈ st'.visited := by
  intro ks
  induction ks with
  | nil =>
    intro st st' h
    simp only [visitAll] at h
    injection h with h
    subst h
    exact ⟨visitPost_refl nodes st, by simp⟩
  | cons k rest ih =>
    intro st st' h
    simp only [visitAll] at h
    split at h
    · simp at h
    · rename_i st1 heq1
      obtain ⟨P1, hk1⟩ := (visit_visitList_post nodes fuel).1 k st st1 heq1
      obtain ⟨P2, hk2⟩ := ih st1 st' h
      refine ⟨visitPost_trans P1 P2, ?_⟩
      intro x hx
      rcases List.mem_cons.mp hx with rfl | hxr
      · exact P2.1 x hk1
      · exact hk2 x hxr

theorem visitAll_ord {nodes : List (String × PNode α ε)} (hacyc : Acyclic nodes) {fuel : Nat} :
    ∀ ks st st', visitAll nodes fuel ks st = .ok st' →
      StInv nodes st → DepsOrdered nodes st.order → (∀ x ∈ st.visited, x ∈ st.order) →
      DepsOrdered nodes st'.order := by
  intro ks
  induction ks with
  | nil =>
    intro st st' h hsi hord hgray
    simp only [visitAll] at h
    injection h with h
    subst h
    exact hord
  | cons k rest ih =>
    intro st st' h hsi hord hgray
    simp only [visitAll] at h
    split at h
    · simp at h
    · rename_i st1 heq1
      have hord1 : DepsOrdered nodes st1.order :=
        (visit_visitList_ord nodes hacyc fuel).1 k st st1 [] heq1 hsi hord
          (fun x hx => Or.inl (hgray x hx))
          (fun g hg => absurd hg (List.not_mem_nil g))
      obtain ⟨P1, _⟩ := (visit_visitList_post nodes fuel).1 k st st1 heq1
      have hsi1 : StInv nodes st1 := P1.2.2.2.2 hsi
      have hgray1 : ∀ x ∈ st1.visited, x ∈ st1.order := by
        intro x hx
        rcases P1.2.2.1 x hx with hx0 | hxo
        · obtain ⟨t1, ho1⟩ := P1.2.1
          rw [ho1]
          exact List.mem_append.mpr (Or.inl (hgray x hx0))
        · exact hxo
      exact ih st1 st' h hsi1 hord1 hgray1

theorem visitAll_ne_fuelExhausted {nodes : List (String × PNode α ε)} {fuel : Nat} :
    ∀ ks st, unvisitedCount nodes st < fuel →
      visitAll nodes fuel ks st ≠ .error .fuelExhausted := by
  intro ks
  induction ks with
  | nil =>
    intro st hcnt h
    simp [visitAll] at h
  | cons k rest ih =>
    intro st hcnt h
    simp only [visitAll] at h
    split at h
    · rename_i e heq
      injection h with h
      exact (visit_visitList_fuel nodes fuel).1 k st hcnt (h ▸ heq)
    · rename_i st1 heq1
      have hle : unvisitedCount nodes st1 ≤ unvisitedCount nodes st :=
        unvisitedCount_le_of_subset (visit_mono heq1)
      exact ih st1 (by omega) h

theorem visitAll_total {nodes : List (String × PNode α ε)} (hdc : DepClosed nodes)
    {fuel : Nat} :
    ∀ ks st, unvisitedCount nodes st < fuel → (∀ k ∈ ks, k ∈ keys nodes) →
      ∃ st', visitAll nodes fuel ks st = .ok st' := by
  intro ks
  induction ks with
  | nil =>
    intro st hcnt hks
    exact ⟨st, by simp [visitAll]⟩
  | cons k rest ih =>
    intro st hcnt hks
    simp only [visitAll]
    obtain ⟨st1, heq1⟩ := (visit_visitList_total nodes hdc fuel).1 k st hcnt (hks k (by simp))
    rw [heq1]
    have hle : unvisitedCount nodes st1 ≤ unvisitedCount nodes st :=
      unvisitedCount_le_of_subset (visit_mono heq1)
    exact ih st1 (by omega) (fun x hx => hks x (List.mem_cons_of_mem _ hx))

theorem visitAll_err {nodes : List (String × PNode α ε)} {fuel : Nat} :
    ∀ ks st e, visitAll nodes fuel ks st = .error e → (∀ k ∈ ks, k ∈ keys nodes) →
      e = .fuelExhausted ∨ ∃ d n, e = .depNotFound d n ∧ n ∈ keys nodes ∧
        d ∈ depsOf nodes n ∧ d ∉ keys nodes := by
  intro ks
  induction ks with
  | nil =>
    intro st e h hks
    simp [visitAll] at h
  | cons k rest ih =>
    intro st e h hks
    simp only [visitAll] at h
    split at h
    · rename_i e1 heq1
      injection h with h
      subst h
      exact (visit_visitList_err nodes fuel).1 k st e1 heq1 (hks k (by simp))
    · rename_i st1 heq1
      exact ih st1 e h (fun x hx => hks x (List.mem_cons_of_mem _ hx))

theorem unvisitedCount_lt_fuel (nodes : List (String × PNode α ε)) :
    unvisitedCount nodes ({} : DfsState) < nodes.length + 1 := by
  unfold unvisitedCount
  have h1 : ((keys nodes).filter (fun k => decide (k ∉ (({} : DfsState)).visited))).length ≤
      (keys nodes).length := List.length_filter_le _ _
  have h2 : (keys nodes).length = nodes.length := by simp [keys]
  omega

/-- Every successful order resolution satisfies the order invariant: it is
duplicate-free, covers exactly the registered ids, and all dependencies of
its entries are registered. -/
theorem determineExecutionOrder_ok_spec {nodes : List (String × PNode α ε)}
    {order : List String} (h : determineExecutionOrder nodes = .ok order) :
    order.Nodup ∧ (∀ x ∈ order, x ∈ keys nodes) ∧ (∀ k ∈ keys nodes, k ∈ order) ∧
      (∀ x ∈ order, ∀ d ∈ depsOf nodes x, d ∈ keys nodes) := by
  unfold determineExecutionOrder at h
  split at h
  · simp at h
  · rename_i st hall
    injection h with h
    subst h
    obtain ⟨P, hks⟩ := visitAll_post (keys nodes) {} st hall
    have hsi : StInv nodes st := P.2.2.2.2 (stInv_empty nodes)
    refine ⟨hsi.1, hsi.2.2.1, ?_, hsi.2.2.2⟩
    intro k hk
    rcases P.2.2.1 k (hks k hk) with hv | ho
    · simp at hv
    · exact ho

/-- On an acyclic graph, every successful order places every declared
dependency strictly before its dependent. -/
theorem determineExecutionOrder_sorted {nodes : List (String × PNode α ε)}
    (hacyc : Acyclic nodes) {order : List String}
    (h : determineExecutionOrder nodes = .ok order) : DepsOrdered nodes order := by
  unfold determineExecutionOrder at h
  split at h
  · simp at h
  · rename_i st hall
    injection h with h
    subst h
    exact visitAll_ord hacyc (keys nodes) {} st hall (stInv_empty nodes)
      (depsOrdered_nil nodes) (by intro x hx; simp at hx)

/-- The fuel chosen by determineExecutionOrder is always sufficient: the
fuelExhausted marker of the embedding is unreachable. -/
theorem determineExecutionOrder_ne_fuelExhausted (nodes : List (String × PNode α ε)) :
    determineExecutionOrder nodes ≠ (.error .fuelExhausted : Except (PipelineError ε) (List String)) := by
  unfold determineExecutionOrder
  split
  · rename_i e heq
    intro h
    injection h with h
    subst h
    exact visitAll_ne_fuelExhausted (keys nodes) {} (unvisitedCount_lt_fuel nodes) heq
  · intro h
    simp at h

/-- When every declared dependency is registered, order resolution
succeeds (no acyclicity needed). -/
theorem determineExecutionOrder_total {nodes : List (String × PNode α ε)}
    (hdc : DepClosed nodes) : ∃ order, determineExecutionOrder nodes = .ok order := by
  obtain ⟨st, hall⟩ := visitAll_total hdc (keys nodes) {}
    (unvisitedCount_lt_fuel nodes) (fun k hk => hk)
  exact ⟨st.order, by simp [determineExecutionOrder, hall]⟩

/-- Every order-resolution failure is a dependency-not-found error naming a
dependency declared by a registered node that is itself unregistered. -/
theorem determineExecutionOrder_err {nodes : List (String × PNode α ε)}
    {e : PipelineError ε} (h : determineExecutionOrder nodes = .error e) :
    ∃ d n, e = .depNotFound d n ∧ n ∈ keys nodes ∧ d ∈ depsOf nodes n ∧ d ∉ keys nodes := by
  have hne := determineExecutionOrder_ne_fuelExhausted nodes
  unfold determineExecutionOrder at h
  split at h
  · rename_i e1 heq
    injection h with h
    have hde : determineExecutionOrder nodes = .error e1 := by
      simp [determineExecutionOrder, heq]
    rcases visitAll_err (keys nodes) {} e1 heq (fun k hk => hk) with hfe | hdep
    · exact absurd (hfe ▸ hde) hne
    · exact h ▸ hdep
  · simp at h

/-! ## Lemmas about the execution loop -/

theorem runNodes_append (nodes : List (String × PNode α ε)) (l1 l2 : List String)
    (ctx : ExecutionContext α) :
    runNodes nodes (l1 ++ l2) ctx =
      match runNodes nodes l1 ctx with
      | (.ok _, ctx1, tr1) =>
        match runNodes nodes l2 ctx1 with
        | (res, ctx2, tr2) => (res, ctx2, tr1 ++ tr2)
      | (.error e, ctx1, tr1) => (.error e, ctx1, tr1) := by
  induction l1 generalizing ctx with
  | nil => simp [runNodes]
  | cons nodeId rest ih =>
    simp only [List.cons_append, runNodes]
    split
    · rfl
    · rename_i node hget
      split
      · rfl
      · rename_i v ctx1 hexec
        simp only [List.append_eq, ih]
        rcases hrest : runNodes nodes rest { ctx1 with results := setKey ctx1.results nodeId v } with
          ⟨res, ctxF, tr⟩
        cases res
        · simp
        · simp

theorem runNodes_ok_trace {nodes : List (String × PNode α ε)} :
    ∀ l (ctx : ExecutionContext α) ctx' tr,
      runNodes nodes l ctx = (.ok (), ctx', tr) → tr = l := by
  intro l
  induction l with
  | nil =>
    intro ctx ctx' tr h
    simp only [runNodes] at h
    injection h with h1 h2
    injection h2 with h2 h3
    exact h3.symm
  | cons nodeId rest ih =>
    intro ctx ctx' tr h
    simp only [runNodes] at h
    split at h
    · injection h with h1 h2
      simp at h1
    · split at h
      · injection h with h1 h2
        simp at h1
      · rename_i v ctx1 hexec
        rcases hrest : runNodes nodes rest { ctx1 with results := setKey ctx1.results nodeId v } with
          ⟨res, ctxF, tr2⟩
        rw [hrest] at h
        injection h with h1 h2
        injection h2 with h2 h3
        subst h3
        subst h1
        rw [ih _ _ _ hrest]

theorem runNodes_binding_mono {nodes : List (String × PNode α ε)}
    (hpres : ∀ id n, getKey nodes id = some n → PreservesResults n) :
    ∀ l (ctx : ExecutionContext α) k v, (k, v) ∈ ctx.results → k ∉ l →
      (k, v) ∈ (runNodes nodes l ctx).2.1.results := by
  intro l
  induction l with
  | nil =>
    intro ctx k v hkv _
    simpa [runNodes] using hkv
  | cons nodeId rest ih =>
    intro ctx k v hkv hkl
    have hne : k ≠ nodeId := fun h => hkl (h ▸ List.mem_cons_self _ _)
    have hkr : k ∉ rest := fun h => hkl (List.mem_cons_of_mem _ h)
    simp only [runNodes]
    split
    · exact hkv
    · rename_i node hget
      have hp := hpres nodeId node hget
      split
    <;> rename_i hexec
      · have h1 := hp ctx k v hkv
        rename_i e ctx1
        rw [hexec] at h1
        exact h1
      · rename_i v1 ctx1
        have h1 := hp ctx k v hkv
        rw [hexec] at h1
        have h2 : (k, v) ∈ setKey ctx1.results nodeId v1 := mem_setKey_of_ne _ hne h1
        rcases hrest : runNodes nodes rest { ctx1 with results := setKey ctx1.results nodeId v1 } with
          ⟨res, ctxF, tr⟩
        have := ih { ctx1 with results := setKey ctx1.results nodeId v1 } k v h2 hkr
        rw [hrest] at this
        simpa [hrest] using this

theorem runNodes_ok_mem_results {nodes : List (String × PNode α ε)}
    (hpres : ∀ id n, getKey nodes id = some n → PreservesResults n) :
    ∀ l (ctx : ExecutionContext α) ctx' tr, l.Nodup →
      runNodes nodes l ctx = (.ok (), ctx', tr) →
      ∀ id ∈ l, ∃ v, (id, v) ∈ ctx'.results := by
  intro l
  induction l with
  | nil =>
    intro ctx ctx' tr _ h id hid
    simp at hid
  | cons nodeId rest ih =>
    intro ctx ctx' tr hnd h id hid
    simp only [runNodes] at h
    split at h
    · injection h with h1 h2
      simp at h1
    · rename_i node hget
      split at h
      · injection h with h1 h2
        simp at h1
      · rename_i v1 ctx1 hexec
        rcases hrest : runNodes nodes rest { ctx1 with results := setKey ctx1.results nodeId v1 } with
          ⟨res, ctxF, tr2⟩
        rw [hrest] at h
        injection h with h1 h2
        injection h2 with h2 h3
        subst h2
        subst h1
        rcases List.mem_cons.mp hid with rfl | hidr
        · have hself : (id, v1) ∈ setKey ctx1.results id v1 := mem_setKey_self _ _ _
          have hnotin : id ∉ rest := (List.nodup_cons.mp hnd).1
          have := runNodes_binding_mono hpres rest
            { ctx1 with results := setKey ctx1.results id v1 } id v1 hself hnotin
          rw [hrest] at this
          exact ⟨v1, this⟩
        · exact ih _ _ _ (List.nodup_cons.mp hnd).2 hrest id hidr

theorem keys_setKey_of_not_mem {m : List (String × α)} {k : String}
    (h : k ∉ keys m) (v : α) : keys (setKey m k v) = keys m ++ [k] := by
  rw [setKey_eq_append_of_not_mem h v]
  simp [keys]

theorem runNodes_appendOnly {nodes : List (String × PNode α ε)} {A : List String}
    (hnode : ∀ id n, getKey nodes id = some n → AddsOnly A n) :
    ∀ l (ctx : ExecutionContext α), l.Nodup → (∀ id ∈ l, id ∉ A) →
      (∀ id ∈ l, id ∉ keys ctx.results) →
      (∀ k v, k ∉ A → (k, v) ∈ ctx.results → (k, v) ∈ (runNodes nodes l ctx).2.1.results) ∧
      (∀ k, k ∈ keys (runNodes nodes l ctx).2.1.results →
        k ∈ keys ctx.results ∨ k ∈ A ∨ k ∈ l) := by
  intro l
  induction l with
  | nil =>
    intro ctx _ _ _
    refine ⟨fun k v _ hkv => by simpa [runNodes] using hkv,
      fun k hk => Or.inl (by simpa [runNodes] using hk)⟩
  | cons nodeId rest ih =>
    intro ctx hnd hA hfresh
    simp only [runNodes]
    split
    · exact ⟨fun k v _ hkv => hkv, fun k hk => Or.inl hk⟩
    · rename_i node hget
      have hao := hnode nodeId node hget
      split
      · rename_i e ctx1 hexec
        refine ⟨fun k v hkA hkv => ?_, fun k hk => ?_⟩
        · have h1 := (hao ctx).1 k v hkA hkv
          rw [hexec] at h1
          exact h1
        · have h1 := (hao ctx).2 k
          rw [hexec] at h1
          rcases h1 hk with h | h
          · exact Or.inl h
          · exact Or.inr (Or.inl h)
      · rename_i v1 ctx1 hexec
        have hkeys1 : ∀ k, k ∈ keys ctx1.results → k ∈ keys ctx.results ∨ k ∈ A := by
          intro k hk
          have h1 := (hao ctx).2 k
          rw [hexec] at h1
          exact h1 hk
        have hpres1 : ∀ k v, k ∉ A → (k, v) ∈ ctx.results → (k, v) ∈ ctx1.results := by
          intro k v hkA hkv
          have h1 := (hao ctx).1 k v hkA hkv
          rw [hexec] at h1
          exact h1
        have hfresh1 : nodeId ∉ keys ctx1.results := by
          intro hmem
          rcases hkeys1 nodeId hmem with h | h
          · exact hfresh nodeId (by simp) h
          · exact hA nodeId (by simp) h
        have hkeys2 : keys (setKey ctx1.results nodeId v1) = keys ctx1.results ++ [nodeId] :=
          keys_setKey_of_not_mem hfresh1 v1
        have hnd2 := (List.nodup_cons.mp hnd).2
        have hA2 : ∀ id ∈ rest, id ∉ A := fun id hid => hA id (List.mem_cons_of_mem _ hid)
        have hfresh2 : ∀ id ∈ rest, id ∉ keys ({ ctx1 with results := setKey ctx1.results nodeId v1 } : ExecutionContext α).results := by
          intro id hid hmem
          simp only at hmem
          rw [hkeys2] at hmem
          rcases List.mem_append.mp hmem with h | h
          · rcases hkeys1 id h with h2 | h2
            · exact hfresh id (List.mem_cons_of_mem _ hid) h2
            · exact hA2 id hid h2
          · have : id = nodeId := by simpa using h
            exact (List.nodup_cons.mp hnd).1 (this ▸ hid)
        obtain ⟨ihp, ihk⟩ := ih { ctx1 with results := setKey ctx1.results nodeId v1 } hnd2 hA2 hfresh2
        rcases hrest : runNodes nodes rest { ctx1 with results := setKey ctx1.results nodeId v1 } with
          ⟨res, ctxF, tr⟩
        rw [hrest] at ihp ihk
        refine ⟨fun k v hkA hkv => ?_, fun k hk => ?_⟩
        · have h1 : (k, v) ∈ ctx1.results := hpres1 k v hkA hkv
          have hkne : k ≠ nodeId := by
            intro hkeq
            exact hfresh1 (hkeq ▸ (by exact List.mem_map_of_mem Prod.fst h1))
          exact ihp k v hkA (mem_setKey_of_ne _ hkne h1)
        · rcases ihk k hk with h | h | h
          · simp only at h
            rw [hkeys2] at h
            rcases List.mem_append.mp h with h2 | h2
            · rcases hkeys1 k h2 with h3 | h3
              · exact Or.inl h3
              · exact Or.inr (Or.inl h3)
            · exact Or.inr (Or.inr (List.mem_cons.mpr (Or.inl (by simpa using h2))))
          · exact Or.inr (Or.inl h)
          · exact Or.inr (Or.inr (List.mem_cons_of_mem _ h))

/-- TaskPipeline.execute is the projection of the instrumented run. -/
theorem execute_eq_traced (p : TaskPipeline α ε) (init : ExecutionContext α) :
    p.execute init =
      match p.executeTraced init with
      | (.ok _, ctx, _) => .ok ctx.results
      | (.error e, _, _) => .error e := by
  unfold TaskPipeline.execute TaskPipeline.executeTraced
  split
  · rfl
  · rcases hrun : runNodes p.nodes _ init with ⟨res, ctxF, tr⟩
    cases res
    · simp [hrun]
    · simp [hrun]

/-- A ranking function decreasing along dependency edges rules out cycles. -/
theorem acyclic_of_rank {nodes : List (String × PNode α ε)} (rank : String → Nat)
    (h : ∀ a b, DepStep nodes a b → rank b < rank a) : Acyclic nodes := by
  intro n hn
  have hlt : ∀ a b, Relation.TransGen (DepStep nodes) a b → rank b < rank a := by
    intro a b hab
    induction hab with
    | single h1 => exact h _ _ h1
    | tail _ h2 ih => exact lt_trans (h _ _ h2) ih
  exact lt_irrefl _ (hlt n n hn)

/-! ## The claims -/

/-- C1: for every acyclic dependency-closed set of registered nodes,
determineExecutionOrder succeeds with an order that contains every
registered id exactly once and places every declared dependency strictly
before its dependent, and a successful execute runs exactly the nodes of
that order, in that order. -/
theorem C1_order_covers_and_respects_dependencies (p : TaskPipeline α ε)
    (hdc : DepClosed p.nodes) (hacyc : Acyclic p.nodes) :
    ∃ order, determineExecutionOrder p.nodes = .ok order ∧
      (∀ id ∈ keys p.nodes, order.count id = 1) ∧
      (∀ id ∈ order, id ∈ keys p.nodes) ∧
      DepsOrdered p.nodes order ∧
      (∀ init ctx2 tr, p.executeTraced init = (.ok (), ctx2, tr) → tr = order) := by
  obtain ⟨order, hord⟩ := determineExecutionOrder_total hdc
  obtain ⟨hnd, hsub, hcov, _⟩ := determineExecutionOrder_ok_spec hord
  refine ⟨order, hord, ?_, hsub, determineExecutionOrder_sorted hacyc hord, ?_⟩
  · intro id hid
    exact List.count_eq_one_of_mem hnd (hcov id hid)
  · intro init ctx2 tr h
    unfold TaskPipeline.executeTraced at h
    rw [hord] at h
    exact runNodes_ok_trace order init ctx2 tr h

/-- C1 witness: the two-node fixture (a depends on b) satisfies the
hypotheses and the theorem applies to it. -/
theorem C1_witness :
    (DepClosed pipeAB.nodes ∧ Acyclic pipeAB.nodes) ∧
    (∃ order, determineExecutionOrder pipeAB.nodes = .ok order ∧
      (∀ id ∈ keys pipeAB.nodes, order.count id = 1) ∧
      (∀ id ∈ order, id ∈ keys pipeAB.nodes) ∧
      DepsOrdered pipeAB.nodes order ∧
      (∀ init ctx2 tr, pipeAB.executeTraced init = (.ok (), ctx2, tr) → tr = order)) := by
  have hdeps : ∀ s, depsOf pipeAB.nodes s = if s = "a" then ["b"] else [] := by
    intro s
    by_cases h1 : s = "a"
    · subst h1
      rfl
    · by_cases h2 : s = "b"
      · subst h2
        rfl
      · simp [depsOf, pipeAB, nodeA, nodeB, TaskPipeline.addNode, setKey, getKey,
          Ne.symm h1, Ne.symm h2, h1]
  have hdc : DepClosed pipeAB.nodes := by
    intro id hid d hd
    rw [hdeps id] at hd
    split at hd
    · have hdb : d = "b" := by simpa using hd
      subst hdb
      simp [pipeAB, nodeA, nodeB, TaskPipeline.addNode, setKey, keys]
    · simp at hd
  have hacyc : Acyclic pipeAB.nodes := by
    refine acyclic_of_rank (fun s => if s = "a" then 1 else 0) ?_
    intro a b hab
    have hab2 : b ∈ (if a = "a" then ["b"] else []) := by
      rw [← hdeps a]
      exact hab
    split at hab2
    · rename_i ha
      have hb : b = "b" := by simpa using hab2
      subst hb
      subst ha
      simp
    · simp at hab2
  exact ⟨⟨hdc, hacyc⟩, C1_order_covers_and_respects_dependencies pipeAB hdc hacyc⟩

/-- C9: determineExecutionOrder terminates on every node graph - the fuel
of the embedding is never exhausted - and for every graph whose declared
dependencies are all registered, cyclic ones included, it still returns an
order containing every registered id exactly once, rather than raising a
distinct cycle error. -/
theorem C9_terminates_even_on_cycles (nodes : List (String × PNode α ε)) :
    determineExecutionOrder nodes ≠ .error .fuelExhausted ∧
    (DepClosed nodes → ∃ order, determineExecutionOrder nodes = .ok order ∧
      (∀ id ∈ keys nodes, order.count id = 1) ∧ (∀ id ∈ order, id ∈ keys nodes)) := by
  refine ⟨determineExecutionOrder_ne_fuelExhausted nodes, fun hdc => ?_⟩
  obtain ⟨order, hord⟩ := determineExecutionOrder_total hdc
  obtain ⟨hnd, hsub, hcov, _⟩ := determineExecutionOrder_ok_spec hord
  exact ⟨order, hord, fun id hid => List.count_eq_one_of_mem hnd (hcov id hid), hsub⟩

/-- C9 witness: the theorem applied to the concrete two-node cycle. -/
theorem C9_witness :
    DepClosed pipeCyc.nodes ∧
    (determineExecutionOrder pipeCyc.nodes ≠ .error .fuelExhausted ∧
     ∃ order, determineExecutionOrder pipeCyc.nodes = .ok order ∧
       (∀ id ∈ keys pipeCyc.nodes, order.count id = 1) ∧
       (∀ id ∈ order, id ∈ keys pipeCyc.nodes)) := by
  have hdc : DepClosed pipeCyc.nodes := by
    unfold DepClosed
    decide
  exact ⟨hdc, (C9_terminates_even_on_cycles pipeCyc.nodes).1,
    (C9_terminates_even_on_cycles pipeCyc.nodes).2 hdc⟩

/-- C4: whenever some registered node declares an unregistered dependency
id, execute fails with the dependency error naming a missing dependency id
and its declaring node, and it does so before any node's execute runs (the
trace is empty and the context untouched). -/
theorem C4_missing_dependency_fails_fast (p : TaskPipeline α ε) (init : ExecutionContext α)
    (n d : String) (hn : n ∈ keys p.nodes) (hd : d ∈ depsOf p.nodes n)
    (hmiss : d ∉ keys p.nodes) :
    ∃ d2 n2, p.executeTraced init = (.error (.depNotFound d2 n2), init, []) ∧
      n2 ∈ keys p.nodes ∧ d2 ∈ depsOf p.nodes n2 ∧ d2 ∉ keys p.nodes := by
  cases hdet : determineExecutionOrder p.nodes with
  | ok order =>
    obtain ⟨_, _, hcov, hdreg⟩ := determineExecutionOrder_ok_spec hdet
    exact absurd (hdreg n (hcov n hn) d hd) hmiss
  | error e =>
    obtain ⟨d2, n2, heq, h1, h2, h3⟩ := determineExecutionOrder_err hdet
    refine ⟨d2, n2, ?_, h1, h2, h3⟩
    unfold TaskPipeline.executeTraced
    rw [hdet, heq]

/-- C4 witness: the fixture node declaring the unregistered "zz" makes the
theorem fire. -/
theorem C4_witness :
    ("a" ∈ keys pipeMissing.nodes ∧ "zz" ∈ depsOf pipeMissing.nodes "a" ∧
      "zz" ∉ keys pipeMissing.nodes) ∧
    ∃ d2 n2, pipeMissing.executeTraced {} = (.error (.depNotFound d2 n2), {}, []) ∧
      n2 ∈ keys pipeMissing.nodes ∧ d2 ∈ depsOf pipeMissing.nodes n2 ∧
      d2 ∉ keys pipeMissing.nodes := by
  have h1 : "a" ∈ keys pipeMissing.nodes := by decide
  have h2 : "zz" ∈ depsOf pipeMissing.nodes "a" := by decide
  have h3 : "zz" ∉ keys pipeMissing.nodes := by decide
  exact ⟨⟨h1, h2, h3⟩, C4_missing_dependency_fails_fast pipeMissing {} "a" "zz" h1 h2 h3⟩

/-- C10: registering a second node under an already-used id silently
replaces the first: both addNode calls return that id, the registry holds
only the second node, a subsequent execute behaves exactly like a pipeline
that only ever saw the second node, and (for a dependency-free second
node) the run's trace is that single id - the first node never runs. -/
theorem C10_duplicate_registration_replaces (n1 n2 : PNode α ε) (hid : n1.id = n2.id)
    (hdeps : n2.dependencies = []) (init : ExecutionContext α) :
    ((TaskPipeline.mk []).addNode n1).2 = n1.id ∧
    (((TaskPipeline.mk []).addNode n1).1.addNode n2).2 = n2.id ∧
    (((TaskPipeline.mk []).addNode n1).1.addNode n2).1.nodes = [(n2.id, n2)] ∧
    (((TaskPipeline.mk []).addNode n1).1.addNode n2).1.executeTraced init =
      ((TaskPipeline.mk []).addNode n2).1.executeTraced init ∧
    ((((TaskPipeline.mk []).addNode n1).1.addNode n2).1.executeTraced init).2.2 = [n2.id] := by
  have hnodes : (((TaskPipeline.mk []).addNode n1).1.addNode n2).1.nodes = [(n2.id, n2)] := by
    simp [TaskPipeline.addNode, setKey, hid]
  have hnodes2 : ((TaskPipeline.mk []).addNode n2).1.nodes = [(n2.id, n2)] := by
    simp [TaskPipeline.addNode, setKey]
  have hdet : determineExecutionOrder [(n2.id, n2)] = .ok [n2.id] := by
    simp [determineExecutionOrder, visitAll, visit, visitList, keys, getKey, hdeps]
  have htr : TaskPipeline.executeTraced ⟨[(n2.id, n2)]⟩ init =
      (match n2.execute init with
       | (.error e, ctx1) => (.error (.nodeFailure e), ctx1, [n2.id])
       | (.ok v, ctx1) =>
         (.ok (), { ctx1 with results := setKey ctx1.results n2.id v }, [n2.id])) := by
    unfold TaskPipeline.executeTraced
    rw [hdet]
    rcases hex : n2.execute init with ⟨res, ctx1⟩
    cases res <;> simp [runNodes, getKey, hex]
  have hexecEq : (((TaskPipeline.mk []).addNode n1).1.addNode n2).1.executeTraced init =
      ((TaskPipeline.mk []).addNode n2).1.executeTraced init := by
    unfold TaskPipeline.executeTraced
    rw [hnodes, hnodes2]
  refine ⟨rfl, rfl, hnodes, hexecEq, ?_⟩
  have hre : (((TaskPipeline.mk []).addNode n1).1.addNode n2).1.executeTraced init =
      TaskPipeline.executeTraced ⟨[(n2.id, n2)]⟩ init := by
    unfold TaskPipeline.executeTraced
    rw [hnodes]
  rw [hre, htr]
  rcases hex : n2.execute init with ⟨res, ctx1⟩
  cases res <;> simp

/-- C10 witness: two concrete nodes sharing the id "dup". -/
theorem C10_witness :
    nodeDup1.id = nodeDup2.id ∧
    (((TaskPipeline.mk []).addNode nodeDup1).1.addNode nodeDup2).1.nodes =
      [(nodeDup2.id, nodeDup2)] ∧
    ((((TaskPipeline.mk []).addNode nodeDup1).1.addNode nodeDup2).1.executeTraced {}).2.2 =
      [nodeDup2.id] := by
  have h := C10_duplicate_registration_replaces nodeDup1 nodeDup2 rfl rfl
    ({} : ExecutionContext Value)
  exact ⟨rfl, h.2.2.1, h.2.2.2.2⟩

/-- C8: after markAsDisconnected, the next getMcpClient performs exactly
one connection-initialization attempt and mirrors its outcome: the
connected client on success, the propagated error on failure, with no
second attempt inside that call. -/
theorem C8_invalidate_then_one_reconnect (s : McpState) (env : Except String Client) :
    getMcpClient env (markAsDisconnected s) =
      (env,
       (match env with
        | .ok c => { mcpClient := some c, isConnected := true }
        | .error _ => { mcpClient := none, isConnected := false }),
       1) := by
  cases env <;> simp [getMcpClient, markAsDisconnected, initMcpClient]

/-- C2, behavior of the code at the failing input: in a thread tracked as
no-results for the original query "checkout button broken", an incoming
message "on mobile" clears the tracking and generates the refined query
combining both inputs, yet the query actually handed to the search is the
original query alone - the refined query is computed and then dropped
(src/app.ts line 319 passes noResultsData.originalQuery), contradicting
the comments around it and the specified refinement behavior. -/
theorem C2_refined_query_generated_but_not_searched :
    handleNoResultsFollowUp (fun _ => .error "llm down")
        [("t1", { channelId := "c1", originalQuery := "checkout button broken" })]
        "t1" "on mobile" =
      ([], { trackingCleared := true,
             refinedQuery := some "checkout button broken on mobile",
             searchedQuery := some "checkout button broken" }) ∧
    (handleNoResultsFollowUp (fun _ => .error "llm down")
        [("t1", { channelId := "c1", originalQuery := "checkout button broken" })]
        "t1" "on mobile").2.searchedQuery ≠
      (handleNoResultsFollowUp (fun _ => .error "llm down")
        [("t1", { channelId := "c1", originalQuery := "checkout button broken" })]
        "t1" "on mobile").2.refinedQuery := by
  constructor
  · decide
  · decide

/-- C5: when the availableTools snapshot contains no search-issues entry,
the linear-search node returns the structured unavailable soft result
without throwing, records it under context.inputs, and its outcome is
identical for every remote-client environment - no remote call can have
been made. -/
theorem C5_search_tool_unavailable (env env2 : McpCallEnv) (id query : String)
    (deps : List String) (ctx : ExecutionContext Value)
    (htools : ∀ t ∈ ctx.availableTools, t.name ≠ McpToolName.SearchIssues) :
    (createLinearSearchNode env id query deps).execute ctx =
      (.ok (.llmResp searchUnavailableResult), unavailableCtx ctx) ∧
    (createLinearSearchNode env id query deps).execute ctx =
      (createLinearSearchNode env2 id query deps).execute ctx := by
  have hfind :
      ctx.availableTools.find? (fun t => decide (t.name = McpToolName.SearchIssues)) = none :=
    List.find?_eq_none.mpr (fun t ht => by simp [htools t ht])
  constructor
  · simp [createLinearSearchNode, hfind, searchUnavailableResult, unavailableCtx]
  · simp [createLinearSearchNode, hfind]

/-- C5 witness: a snapshot holding only the viewer tool, with two distinct
client environments. -/
theorem C5_witness :
    (∀ t ∈ noSearchCtx.availableTools, t.name ≠ McpToolName.SearchIssues) ∧
    ((createLinearSearchNode mcpEnvOk "linearSearch" "q" []).execute noSearchCtx =
      (.ok (.llmResp searchUnavailableResult), unavailableCtx noSearchCtx) ∧
     (createLinearSearchNode mcpEnvOk "linearSearch" "q" []).execute noSearchCtx =
      (createLinearSearchNode mcpEnvDown "linearSearch" "q" []).execute noSearchCtx) := by
  have htools : ∀ t ∈ noSearchCtx.availableTools, t.name ≠ McpToolName.SearchIssues := by
    decide
  exact ⟨htools, C5_search_tool_unavailable mcpEnvOk mcpEnvDown "linearSearch" "q" []
    noSearchCtx htools⟩

theorem processImages_foldl (fetch : String → Except String String) :
    ∀ (files : List String) (acc : List ImageContent),
      files.foldl (fun acc fileUrl =>
        match fetch fileUrl with
        | .ok base64Image => acc ++ [encodeImage fileUrl base64Image]
        | .error _ => acc) acc =
      acc ++ files.filterMap (fun f => ((fetch f).toOption).map (encodeImage f)) := by
  intro files
  induction files with
  | nil =>
    intro acc
    simp
  | cons f rest ih =>
    intro acc
    cases hf : fetch f <;>
      simp [List.foldl_cons, hf, ih, List.filterMap_cons, Except.toOption]

/-- C6: the images node never throws and returns, in input order, exactly
the encoded images of the files whose fetch succeeded; in particular with
three file locators whose second fetch fails it returns the encodings of
the first and third files in that order. -/
theorem C6_failed_file_skipped (fetch : String → Except String String) (id : String)
    (files : List String) (ctx : ExecutionContext Value) :
    (createProcessImagesNode fetch id files).execute ctx =
      (.ok (.images (files.filterMap (fun f => ((fetch f).toOption).map (encodeImage f)))), ctx) ∧
    (∀ f1 f2 f3 p1 p3 er, fetch f1 = .ok p1 → fetch f2 = .error er → fetch f3 = .ok p3 →
      (createProcessImagesNode fetch id [f1, f2, f3]).execute ctx =
        (.ok (.images [encodeImage f1 p1, encodeImage f3 p3]), ctx)) := by
  have hgen : ∀ fs : List String, (createProcessImagesNode fetch id fs).execute ctx =
      (.ok (.images (fs.filterMap (fun f => ((fetch f).toOption).map (encodeImage f)))), ctx) := by
    intro fs
    simp only [createProcessImagesNode]
    split
    · rename_i hlen
      have hnil : fs = [] := List.length_eq_zero.mp hlen
      subst hnil
      simp
    · rw [processImages_foldl fetch fs []]
      simp
  refine ⟨hgen files, ?_⟩
  intro f1 f2 f3 p1 p3 er h1 h2 h3
  rw [hgen [f1, f2, f3]]
  simp [h1, h2, h3, Except.toOption]

/-- C6 witness: three fixture urls whose second fetch fails. -/
theorem C6_witness :
    (cexFetch "u1.png" = .ok "payload-u1.png" ∧ cexFetch "u2.png" = .error "http 500" ∧
      cexFetch "u3.gif" = .ok "payload-u3.gif") ∧
    (createProcessImagesNode cexFetch "processImages" ["u1.png", "u2.png", "u3.gif"]).execute {} =
      (.ok (.images [encodeImage "u1.png" "payload-u1.png", encodeImage "u3.gif" "payload-u3.gif"]),
       {}) := by
  have h1 : cexFetch "u1.png" = .ok "payload-u1.png" := by simp [cexFetch]
  have h2 : cexFetch "u2.png" = .error "http 500" := by simp [cexFetch]
  have h3 : cexFetch "u3.gif" = .ok "payload-u3.gif" := by simp [cexFetch]
  exact ⟨⟨h1, h2, h3⟩,
    (C6_failed_file_skipped cexFetch "processImages" ["u1.png", "u2.png", "u3.gif"] {}).2
      "u1.png" "u2.png" "u3.gif" "payload-u1.png" "payload-u3.gif" "http 500" h1 h2 h3⟩

theorem addsOnly_processImages (fetch : String → Except String String) (id : String)
    (files : List String) :
    AddsOnly ["linearSearchResults"] (createProcessImagesNode fetch id files) := by
  intro ctx
  constructor
  · intro k v _ hkv
    simp only [createProcessImagesNode]
    split
    · exact hkv
    · exact hkv
  · intro k hk
    simp only [createProcessImagesNode] at hk
    split at hk
    · exact Or.inl hk
    · exact Or.inl hk

theorem addsOnly_queryLLM (llm : String → String → List ImageContent → Except String String)
    (id prompt text : String) (deps : List String) :
    AddsOnly ["linearSearchResults"] (createQueryLLMNode llm id prompt text deps) := by
  intro ctx
  constructor
  · intro k v _ hkv
    simp only [createQueryLLMNode]
    split
    · exact hkv
    · exact hkv
  · intro k hk
    simp only [createQueryLLMNode] at hk
    split at hk
    · exact Or.inl hk
    · exact Or.inl hk

theorem addsOnly_linearSearch (env : McpCallEnv) (id query : String) (deps : List String) :
    AddsOnly ["linearSearchResults"] (createLinearSearchNode env id query deps) := by
  intro ctx
  constructor
  · intro k v hkA hkv
    have hkne : k ≠ "linearSearchResults" := by simpa using hkA
    simp only [createLinearSearchNode]
    split
    · split
      · exact hkv
      · split
        · exact hkv
        · exact mem_setKey_of_ne _ hkne hkv
    · exact hkv
  · intro k hk
    simp only [createLinearSearchNode] at hk
    split at hk
    · split at hk
      · exact Or.inl hk
      · split at hk
        · exact Or.inl hk
        · rcases mem_keys_setKey hk with h | h
          · exact Or.inl h
          · exact Or.inr (by simp [h])
    · exact Or.inl hk

theorem addsOnly_rateMatching (rate : Value → Option Value → Except String String)
    (id userMessage : String) (deps : List String) :
    AddsOnly ["linearSearchResults"] (createRateMatchingTicketsNode rate id userMessage deps) := by
  intro ctx
  constructor
  · intro k v _ hkv
    simp only [createRateMatchingTicketsNode]
    split
    · exact hkv
    · split
      · exact hkv
      · exact hkv
  · intro k hk
    simp only [createRateMatchingTicketsNode] at hk
    split at hk
    · exact Or.inl hk
    · split at hk
      · exact Or.inl hk
      · exact Or.inl hk

theorem processPipeline_addsOnly (env : PipelineEnv) (text : String) (files : List String) :
    ∀ id n, getKey (processPipeline env text files).nodes id = some n →
      AddsOnly ["linearSearchResults"] n := by
  intro id n hget
  simp only [processPipeline, TaskPipeline.addNode, setKey, getKey] at hget
  split at hget
  · injection hget with hget
    subst hget
    exact addsOnly_processImages env.fetchBase64 "processImages" files
  · split at hget
    · injection hget with hget
      subst hget
      exact addsOnly_queryLLM env.llmRespond "queryLLM" env.detectPrompt text _
    · split at hget
      · injection hget with hget
        subst hget
        exact addsOnly_linearSearch env.mcp "linearSearch" text _
      · split at hget
        · injection hget with hget
          subst hget
          exact addsOnly_rateMatching env.rate "rateMatching" text _
        · simp at hget

/-- C3: if the node at position k of the resolved execution order fails
(every node before it having succeeded), then no node at a later position
executes, execute propagates exactly that node's failure, and the results
of the nodes completed before position k are still present in the context
at failure time. -/
theorem C3_node_failure_aborts_rest (p : TaskPipeline α ε) (init : ExecutionContext α)
    (l1 l2 : List String) (nodeId : String)
    (hord : determineExecutionOrder p.nodes = .ok (l1 ++ nodeId :: l2))
    (hpres : ∀ id n, getKey p.nodes id = some n → PreservesResults n)
    (ctx1 : ExecutionContext α) (tr1 : List String)
    (hrun1 : runNodes p.nodes l1 init = (.ok (), ctx1, tr1))
    (node : PNode α ε) (hget : getKey p.nodes nodeId = some node)
    (e : ε) (ctx2 : ExecutionContext α) (hfail : node.execute ctx1 = (.error e, ctx2)) :
    p.executeTraced init = (.error (.nodeFailure e), ctx2, l1 ++ [nodeId]) ∧
    (∀ id ∈ l2, id ∉ l1 ++ [nodeId]) ∧
    (∀ id ∈ l1, ∃ v, (id, v) ∈ ctx2.results) := by
  have htr1 : tr1 = l1 := runNodes_ok_trace l1 init ctx1 tr1 hrun1
  rw [htr1] at hrun1
  obtain ⟨hnd, _, _, _⟩ := determineExecutionOrder_ok_spec hord
  obtain ⟨hnd1, hnd2, hdisj⟩ := List.nodup_append.mp hnd
  have hstep : runNodes p.nodes (nodeId :: l2) ctx1 =
      (.error (.nodeFailure e), ctx2, [nodeId]) := by
    simp [runNodes, hget, hfail]
  refine ⟨?_, ?_, ?_⟩
  · unfold TaskPipeline.executeTraced
    rw [hord]
    show runNodes p.nodes (l1 ++ nodeId :: l2) init =
      (.error (.nodeFailure e), ctx2, l1 ++ [nodeId])
    rw [runNodes_append, hrun1]
    simp [hstep]
  · intro id hid hmem
    rcases List.mem_append.mp hmem with hmem1 | hmem2
    · exact hdisj hmem1 (List.mem_cons_of_mem _ hid)
    · have hidn : id = nodeId := by simpa using hmem2
      subst hidn
      exact (List.nodup_cons.mp hnd2).1 hid
  · intro id hid
    obtain ⟨v, hv⟩ := runNodes_ok_mem_results hpres l1 init ctx1 l1 hnd1 hrun1 id hid
    refine ⟨v, ?_⟩
    have hp := hpres nodeId node hget ctx1 id v hv
    rw [hfail] at hp
    exact hp

/-- C3 witness: the three-node fixture chain whose middle node throws. -/
theorem C3_witness :
    determineExecutionOrder pipeFail.nodes = .ok (["first"] ++ "boom" :: ["last"]) ∧
    runNodes pipeFail.nodes ["first"] {} =
      (.ok (), { results := [("first", Value.str "r1")] }, ["first"]) ∧
    getKey pipeFail.nodes "boom" = some nodeBoom ∧
    nodeBoom.execute { results := [("first", Value.str "r1")] } =
      (.error "boom", { results := [("first", Value.str "r1")] }) ∧
    (pipeFail.executeTraced {} =
      (.error (.nodeFailure "boom"), { results := [("first", Value.str "r1")] },
        ["first"] ++ ["boom"]) ∧
     (∀ id ∈ ["last"], id ∉ ["first"] ++ ["boom"]) ∧
     (∀ id ∈ ["first"], ∃ v,
        (id, v) ∈ ({ results := [("first", Value.str "r1")] } : ExecutionContext Value).results)) := by
  have hord : determineExecutionOrder pipeFail.nodes = .ok (["first"] ++ "boom" :: ["last"]) := by
    simp [determineExecutionOrder, visitAll, visit, visitList, keys, getKey,
      pipeFail, nodeFirst, nodeBoom, nodeLast, TaskPipeline.addNode, setKey]
  have hpres : ∀ id n, getKey pipeFail.nodes id = some n → PreservesResults n := by
    intro id n hget
    simp only [pipeFail, nodeFirst, nodeBoom, nodeLast, TaskPipeline.addNode, setKey, getKey] at hget
    split at hget
    · injection hget with hget
      subst hget
      intro ctx k v h
      exact h
    · split at hget
      · injection hget with hget
        subst hget
        intro ctx k v h
        exact h
      · split at hget
        · injection hget with hget
          subst hget
          intro ctx k v h
          exact h
        · simp at hget
  have hrun1 : runNodes pipeFail.nodes ["first"] {} =
      (.ok (), { results := [("first", Value.str "r1")] }, ["first"]) := by
    simp [runNodes, pipeFail, nodeFirst, nodeBoom, nodeLast, TaskPipeline.addNode,
      setKey, getKey, fixtureExec]
  have hget : getKey pipeFail.nodes "boom" = some nodeBoom := by
    simp [pipeFail, nodeFirst, nodeBoom, nodeLast, TaskPipeline.addNode, setKey, getKey]
  have hfail : nodeBoom.execute { results := [("first", Value.str "r1")] } =
      (.error "boom", { results := [("first", Value.str "r1")] }) := rfl
  exact ⟨hord, hrun1, hget, hfail,
    C3_node_failure_aborts_rest pipeFail {} ["first"] ["last"] "boom" hord hpres
      { results := [("first", Value.str "r1")] } ["first"] hrun1 nodeBoom hget
      "boom" { results := [("first", Value.str "r1")] } hfail⟩

/-- C7 counterexample: in a concrete all-success run of the
processMessageWithLLM pipeline, the key linearSearchResults is written into
context.results by the linear-search node although it is not the id of any
registered node, refuting the claim that every key ever written into
results is a registered node id. -/
theorem C7_counterexample :
    "linearSearchResults" ∈
      keys ((processPipeline cexEnv "hello" []).executeTraced cexCtx).2.1.results ∧
    "linearSearchResults" ∉ keys (processPipeline cexEnv "hello" []).nodes := by
  constructor
  · simp [TaskPipeline.executeTraced, determineExecutionOrder, visitAll, visit, visitList,
      processPipeline, TaskPipeline.addNode, setKey, getKey, keys, cexCtx, cexEnv,
      createProcessImagesNode, createQueryLLMNode, createLinearSearchNode,
      createRateMatchingTicketsNode, runNodes]
  · simp [processPipeline, TaskPipeline.addNode, setKey, keys,
      createProcessImagesNode, createQueryLLMNode, createLinearSearchNode,
      createRateMatchingTicketsNode]

/-- C7 amended: throughout every run of the processMessageWithLLM pipeline,
every key of the context's results mapping is either a registered node id
or the well-known side-channel key linearSearchResults written by the
linear-search node, and entries outside that side-channel key - in
particular every entry written for a node - are never overwritten later in
the run (the run resolves to the registration order processIds; the split
processIds = l1 ++ l2 ranges over every intermediate point of the run). -/
theorem C7_amended_append_only (env : PipelineEnv) (text : String) (files : List String)
    (tools : List McpTool) (l1 l2 : List String) (hsplit : processIds = l1 ++ l2) :
    determineExecutionOrder (processPipeline env text files).nodes = .ok processIds ∧
    (∀ k v, k ∉ ["linearSearchResults"] →
      (k, v) ∈ (runNodes (processPipeline env text files).nodes l1
        { availableTools := tools }).2.1.results →
      (k, v) ∈ (runNodes (processPipeline env text files).nodes processIds
        { availableTools := tools }).2.1.results) ∧
    (∀ k, k ∈ keys (runNodes (processPipeline env text files).nodes processIds
        { availableTools := tools }).2.1.results →
      k ∈ processIds ∨ k ∈ ["linearSearchResults"]) := by
  have hao := processPipeline_addsOnly env text files
  have hord : determineExecutionOrder (processPipeline env text files).nodes = .ok processIds := by
    simp [determineExecutionOrder, visitAll, visit, visitList, keys, getKey, processIds,
      processPipeline, TaskPipeline.addNode, setKey,
      createProcessImagesNode, createQueryLLMNode, createLinearSearchNode,
      createRateMatchingTicketsNode]
  have hnodup : processIds.Nodup := by decide
  have hA : ∀ id ∈ processIds, id ∉ (["linearSearchResults"] : List String) := by decide
  have hfresh : ∀ id ∈ processIds,
      id ∉ keys ({ availableTools := tools } : ExecutionContext Value).results := by
    intro id _ h
    simp [keys] at h
  obtain ⟨hpFull, hkFull⟩ := runNodes_appendOnly hao processIds
    { availableTools := tools } hnodup hA hfresh
  refine ⟨hord, ?_, ?_⟩
  · intro k v hkA hkv
    rw [hsplit, runNodes_append]
    have hnodup12 : (l1 ++ l2).Nodup := hsplit ▸ hnodup
    obtain ⟨hnd1, hnd2, hdisj⟩ := List.nodup_append.mp hnodup12
    have hA1 : ∀ id ∈ l1, id ∉ (["linearSearchResults"] : List String) :=
      fun id hid => hA id (hsplit ▸ List.mem_append.mpr (Or.inl hid))
    have hA2 : ∀ id ∈ l2, id ∉ (["linearSearchResults"] : List String) :=
      fun id hid => hA id (hsplit ▸ List.mem_append.mpr (Or.inr hid))
    have hfresh1 : ∀ id ∈ l1,
        id ∉ keys ({ availableTools := tools } : ExecutionContext Value).results := by
      intro id _ h
      simp [keys] at h
    rcases hrun1 : runNodes (processPipeline env text files).nodes l1
        { availableTools := tools } with ⟨res1, ctxMid, tr1⟩
    obtain ⟨hp1, hk1⟩ := runNodes_appendOnly hao l1
      { availableTools := tools } hnd1 hA1 hfresh1
    rw [hrun1] at hp1 hk1 hkv
    cases res1 with
    | error e => exact hkv
    | ok u =>
      have hfresh2 : ∀ id ∈ l2, id ∉ keys ctxMid.results := by
        intro id hid hmem
        rcases hk1 id hmem with h | h | h
        · simp [keys] at h
        · exact hA2 id hid h
        · exact hdisj h hid
      obtain ⟨hp2, _⟩ := runNodes_appendOnly hao l2 ctxMid hnd2 hA2 hfresh2
      exact hp2 k v hkA hkv
  · intro k hk
    rcases hkFull k hk with h | h | h
    · simp [keys] at h
    · exact Or.inr h
    · exact Or.inl h

/-- C7 amended witness: the amended statement applied to a concrete
environment and the split after the first two nodes. -/
theorem C7_amended_witness :
    (processIds = ["processImages", "queryLLM"] ++ ["linearSearch", "rateMatching"]) ∧
    (determineExecutionOrder (processPipeline cexEnv "hello" []).nodes = .ok processIds ∧
     (∀ k v, k ∉ ["linearSearchResults"] →
       (k, v) ∈ (runNodes (processPipeline cexEnv "hello" []).nodes ["processImages", "queryLLM"]
         { availableTools := cexCtx.availableTools }).2.1.results →
       (k, v) ∈ (runNodes (processPipeline cexEnv "hello" []).nodes processIds
         { availableTools := cexCtx.availableTools }).2.1.results) ∧
     (∀ k, k ∈ keys (runNodes (processPipeline cexEnv "hello" []).nodes processIds
         { availableTools := cexCtx.availableTools }).2.1.results →
       k ∈ processIds ∨ k ∈ ["linearSearchResults"])) :=
  ⟨rfl, C7_amended_append_only cexEnv "hello" [] cexCtx.availableTools
    ["processImages", "queryLLM"] ["linearSearch", "rateMatching"] rfl⟩

end SlackLinearBot
